import Mathlib

/-!
# Verification of the spreadsheet formula engine and sparse cell store

A shallow embedding of the repository's formula subsystem
(`FormulaAST.ts`, `FormulaParser.ts`, `FormulaEngine.ts` inside
`FormulaManager.ts`, `FormulaManager.ts`) and of the block-partitioned
sparse cell store (`SparseMatrix`), together with theorems settling the
specification's claims about them.

Modelling conventions:
* JavaScript numbers are modelled as `Rat` (the formula paths use exact
  decimal arithmetic on the values the claims exercise); row/column
  indices are modelled as `Int` (they are integers everywhere in the
  source, and deletions can drive intermediate values below zero).
* Thrown JavaScript exceptions are modelled with `Except String`.
* JavaScript `Map`s are modelled as association lists in insertion
  order: `set` overwrites in place or appends, `delete` removes the
  entry, iteration is list order.
* Registry keys of the form `"row:col"` and block keys `"r_c"` are
  modelled as integer pairs; the source's string formatting of such
  keys is injective, so the pair model is faithful.
-/

set_option linter.unreachableTactic false
set_option linter.unusedTactic false
set_option linter.unnecessarySeqFocus false

/-- Cell reference node payload (`CellReference` in `FormulaAST.ts`).
The source's optional `absoluteRow?`/`absoluteCol?` booleans are
modelled as `Bool` (the parser always materialises them, and an absent
flag behaves exactly as `false` everywhere they are read). -/
structure CellRef where
  row : Int
  col : Int
  absoluteRow : Bool
  absoluteCol : Bool
deriving DecidableEq, Repr

/-- Cell range node payload (`CellRange` in `FormulaAST.ts`). -/
structure CellRangeRef where
  startRow : Int
  startCol : Int
  endRow : Int
  endCol : Int
  absoluteStartRow : Bool
  absoluteStartCol : Bool
  absoluteEndRow : Bool
  absoluteEndCol : Bool
deriving DecidableEq, Repr

/-- The formula AST node sum type (`FormulaNode` in `FormulaAST.ts`).
Binary and unary operators are carried as strings, exactly as at the
JavaScript runtime (the TS union type is an unchecked cast in
`previousToken`). -/
inductive FormulaNode where
  | cell (ref : CellRef)
  | rangeN (rg : CellRangeRef)
  | numberLit (value : Rat)
  | stringLit (value : String)
  | functionCall (name : String) (args : List FormulaNode)
  | binary (operator : String) (left right : FormulaNode)
  | unary (operator : String) (operand : FormulaNode)

/-- `FormulaAST` record: parsed root plus the original formula text. -/
structure FormulaAST where
  root : FormulaNode
  originalFormula : String

/-- Helper for `indexToColumnLetter`: the loop body on a non-negative
index (`while (index >= 0) { result = chr(65 + index % 26) + result;
index = floor(index / 26) - 1 }`). -/
def colLetterAux (i : Nat) : String :=
  let c := Char.ofNat (65 + i % 26)
  if _h : i < 26 then String.singleton c
  else colLetterAux (i / 26 - 1) ++ String.singleton c
termination_by i
decreasing_by
  have : i / 26 < i := Nat.div_lt_self (by omega) (by omega)
  omega

/-- `FormulaUtils.indexToColumnLetter`: zero-based column index to
spreadsheet letters (0 → A, 25 → Z, 26 → AA). A negative index never
enters the loop and yields the empty string. -/
def indexToColumnLetter (index : Int) : String :=
  if index < 0 then "" else colLetterAux index.toNat

/-- `FormulaUtils.columnLetterToIndex`: `result = result * 26 +
(charCode - 64)` over the letters, minus one at the end. -/
def columnLetterToIndex (letter : String) : Int :=
  (letter.data.foldl (fun acc c => acc * 26 + ((c.toNat : Int) - 64)) 0) - 1

/-- `parseInt(digits, 10)` on a non-empty all-digit string. -/
def digitsToNat (ds : List Char) : Nat :=
  ds.foldl (fun acc c => acc * 10 + (c.toNat - 48)) 0

/-- Character class test `[A-Z]` of the cell-reference regex. -/
def isUpperAZ (c : Char) : Bool := 'A' ≤ c && c ≤ 'Z'

/-- Character class test `\d`. -/
def isDigitC (c : Char) : Bool := '0' ≤ c && c ≤ '9'

/-- Optional leading `$` of the cell-reference regex (`(\$?)`). -/
def takeDollar : List Char → Bool × List Char
  | '$' :: rest => (true, rest)
  | cs => (false, cs)

/-- `FormulaUtils.parseCellReference`: the regex
`^(\$?)([A-Z]+)(\$?)(\d+)$` (the three character classes are disjoint,
so greedy spans model the match exactly), then
`columnLetterToIndex` on the letters and `parseInt(row) - 1`. -/
def parseCellReference (ref : String) : Except String CellRef :=
  let err : Except String CellRef :=
    .error ("Неверная ссылка на ячейку: " ++ ref)
  let (dCol, cs1) := takeDollar ref.data
  let letters := cs1.takeWhile isUpperAZ
  let cs2 := cs1.dropWhile isUpperAZ
  if letters.isEmpty then err
  else
    let (dRow, cs3) := takeDollar cs2
    let digits := cs3.takeWhile isDigitC
    let cs4 := cs3.dropWhile isDigitC
    if digits.isEmpty || !cs4.isEmpty then err
    else
      .ok { row := (digitsToNat digits : Int) - 1
            col := columnLetterToIndex (String.mk letters)
            absoluteRow := dRow
            absoluteCol := dCol }

/-- `FormulaUtils.formatCellReference`: `$`-prefixes per the absolute
flags, column letters, 1-based row number. -/
def formatCellReference (cell : CellRef) : String :=
  (if cell.absoluteCol then "$" else "") ++ indexToColumnLetter cell.col ++
    (if cell.absoluteRow then "$" else "") ++ toString (cell.row + 1)

/-- `FormulaUtils.formatCellRange`: formats both endpoints joined by
`:`. -/
def formatCellRange (range : CellRangeRef) : String :=
  formatCellReference
      { row := range.startRow, col := range.startCol
        absoluteRow := range.absoluteStartRow
        absoluteCol := range.absoluteStartCol } ++ ":" ++
    formatCellReference
      { row := range.endRow, col := range.endCol
        absoluteRow := range.absoluteEndRow
        absoluteCol := range.absoluteEndCol }

/-- `FormulaUtils.shiftCellReference`: on each non-absolute axis, apply
the insertion bump, then the deletion decrement (throwing on an exact
hit), then the general offset. -/
def shiftCellReference (cell : CellRef) (rowOffset colOffset : Int)
    (insertRow insertCol deleteRow deleteCol : Option Int) :
    Except String CellRef := do
  let newRow ←
    if cell.absoluteRow then pure cell.row
    else do
      let r1 :=
        match insertRow with
        | some ir => if cell.row ≥ ir then cell.row + 1 else cell.row
        | none => cell.row
      let r2 ←
        match deleteRow with
        | some dr =>
            if r1 > dr then pure (r1 - 1)
            else if r1 = dr then
              Except.error ("Ссылка на удаленную ячейку: " ++ formatCellReference cell)
            else pure r1
        | none => pure r1
      pure (r2 + rowOffset)
  let newCol ←
    if cell.absoluteCol then pure cell.col
    else do
      let c1 :=
        match insertCol with
        | some ic => if cell.col ≥ ic then cell.col + 1 else cell.col
        | none => cell.col
      let c2 ←
        match deleteCol with
        | some dc =>
            if c1 > dc then pure (c1 - 1)
            else if c1 = dc then
              Except.error ("Ссылка на удаленную ячейку: " ++ formatCellReference cell)
            else pure c1
        | none => pure c1
      pure (c2 + colOffset)
  return { cell with row := newRow, col := newCol }

/-- `FormulaUtils.shiftCellRange`: shifts both endpoints (packaged as
cell references carrying the range's absolute flags) independently. -/
def shiftCellRange (range : CellRangeRef) (rowOffset colOffset : Int)
    (insertRow insertCol deleteRow deleteCol : Option Int) :
    Except String CellRangeRef := do
  let start ← shiftCellReference
      { row := range.startRow, col := range.startCol
        absoluteRow := range.absoluteStartRow
        absoluteCol := range.absoluteStartCol }
      rowOffset colOffset insertRow insertCol deleteRow deleteCol
  let «end» ← shiftCellReference
      { row := range.endRow, col := range.endCol
        absoluteRow := range.absoluteEndRow
        absoluteCol := range.absoluteEndCol }
      rowOffset colOffset insertRow insertCol deleteRow deleteCol
  return { range with
             startRow := start.row, startCol := start.col
             endRow := «end».row, endCol := «end».col }

/-! ## JavaScript number parsing and printing

The engine's values are modelled as exact rationals. `jsParseFloat`
models `parseFloat` (whitespace skip, optional sign, digits, optional
fraction, optional exponent, trailing junk ignored; `none` models
`NaN`). `numToString` models `Number.prototype.toString` on the
terminating decimals that arise from parsed formula text (for a
non-terminating expansion the fuel truncates; such values are produced
by no claim). -/

/-- Digits span used by the `parseFloat` model. -/
def takeDigits (cs : List Char) : List Char × List Char :=
  (cs.takeWhile isDigitC, cs.dropWhile isDigitC)

/-- Model of JavaScript `parseFloat`. The value
`sign * (ints + fracs / 10 ^ |fracs|) * 10 ^ exp` is assembled as one
integer mantissa over a power-of-ten denominator. -/
def jsParseFloat (s : String) : Option Rat :=
  let cs := s.data.dropWhile (fun c => c = ' ' || c = '\t' || c = '\n' || c = '\r')
  let (neg, cs1) :=
    match cs with
    | '-' :: r => (true, r)
    | '+' :: r => (false, r)
    | _ => (false, cs)
  let (ints, cs2) := takeDigits cs1
  let (fracs, cs3) :=
    match cs2 with
    | '.' :: r => takeDigits r
    | _ => ([], cs2)
  if ints.isEmpty && fracs.isEmpty then none
  else
    let mant : Nat := digitsToNat ints * 10 ^ fracs.length + digitsToNat fracs
    let expVal : Int :=
      match cs3 with
      | 'e' :: r | 'E' :: r =>
        (match r with
         | '-' :: r2 =>
             let ds := (takeDigits r2).1
             if ds.isEmpty then 0 else -(digitsToNat ds : Int)
         | '+' :: r2 =>
             let ds := (takeDigits r2).1
             if ds.isEmpty then 0 else (digitsToNat ds : Int)
         | _ =>
             let ds := (takeDigits r).1
             if ds.isEmpty then 0 else (digitsToNat ds : Int))
      | _ => 0
    let sgn : Int := if neg then -1 else 1
    let e : Int := expVal - (fracs.length : Int)
    some (if 0 ≤ e then mkRat (sgn * (mant : Int) * 10 ^ e.toNat) 1
          else mkRat (sgn * (mant : Int)) (10 ^ (-e).toNat))

/-- Decimal expansion of `num/den` (`num < den`), one digit per step. -/
def fracDigitsAux (num den : Nat) : Nat → String
  | 0 => ""
  | fuel + 1 =>
    if num = 0 then ""
    else
      String.singleton (Char.ofNat (48 + num * 10 / den)) ++
        fracDigitsAux (num * 10 % den) den fuel

/-- Model of `Number.prototype.toString` on terminating decimals. -/
def numToString (q : Rat) : String :=
  let a : Rat := |q|
  let ip : Nat := a.num.toNat / a.den
  let fracNum : Nat := a.num.toNat % a.den
  (if q < 0 then "-" else "") ++ toString ip ++
    (if fracNum = 0 then "" else "." ++ fracDigitsAux fracNum a.den 40)

/-! ## FormulaParser (`FormulaParser.ts`)

A character-level model of the recursive-descent parser. The parser
state is the stripped input (the text after `=`) plus a cursor
position; every source method maps to one function here. The mutually
recursive grammar levels take a fuel argument that strictly decreases
on every call; `parseFormula` supplies more fuel than the parser can
consume on its input, so the fuel-exhaustion error is unreachable. -/

/-- Parse errors (`ParseError` in the source: message plus character
position). The `parse` precondition failure (`Формула должна
начинаться с =`), thrown as a plain `Error` in the source, is carried
in the same type. -/
structure ParseError where
  message : String
  position : Nat
deriving DecidableEq, Repr

/-- `isAlpha`. -/
def isAlphaC (c : Char) : Bool :=
  ('a' ≤ c && c ≤ 'z') || ('A' ≤ c && c ≤ 'Z')

/-- JavaScript `String.toUpperCase`, character by character (the inputs
here are ASCII identifiers). -/
def jsToUpper (s : String) : String :=
  String.mk (s.data.map Char.toUpper)

/-- `currentChar()`: the character under the cursor, `'\0'` at the
end. -/
def currentChar (inp : List Char) (pos : Nat) : Char :=
  inp.getD pos (Char.ofNat 0)

/-- `advance()`: moves one character, never past the end. -/
def advancePos (inp : List Char) (pos : Nat) : Nat :=
  if pos < inp.length then pos + 1 else pos

/-- `check(expected)`: substring comparison at the cursor. -/
def checkTok (inp : List Char) (pos : Nat) (expected : String) : Bool :=
  if inp.length ≤ pos then false
  else decide ((inp.drop pos).take expected.length = expected.data)

/-- `match(tokens)`: tries the tokens in order; on the first `check`
success it advances — by one single character, whatever the token's
length — and reports the new cursor. -/
def matchTokens (inp : List Char) (pos : Nat) : List String → Option Nat
  | [] => none
  | t :: ts =>
    if checkTok inp pos t then some (advancePos inp pos) else matchTokens inp pos ts

/-- `previousToken()`: the single character before the cursor (the
source comment itself calls this a simplified implementation). -/
def previousToken (inp : List Char) (pos : Nat) : String :=
  if pos = 0 then ""
  else
    match inp.get? (pos - 1) with
    | some c => String.singleton c
    | none => ""

/-- `consume(expected, errorMessage)`. -/
def consumeTok (inp : List Char) (pos : Nat) (expected errMsg : String) :
    Except ParseError Nat :=
  if checkTok inp pos expected then .ok (advancePos inp pos)
  else .error ⟨errMsg, pos⟩

/-- `parseIdentifier`: letters and digits. -/
def parseIdentifier (inp : List Char) (pos : Nat) : String × Nat :=
  let cs := (inp.drop pos).takeWhile (fun c => isAlphaC c || isDigitC c)
  (String.mk cs, pos + cs.length)

/-- `parseNumber`: collects digits and dots, then `parseFloat` with an
`isNaN` guard. -/
def parseNumberP (inp : List Char) (pos : Nat) :
    Except ParseError (FormulaNode × Nat) :=
  let cs := (inp.drop pos).takeWhile (fun c => isDigitC c || c = '.')
  let newPos := pos + cs.length
  match jsParseFloat (String.mk cs) with
  | none => .error ⟨"Неверное число: " ++ String.mk cs, newPos⟩
  | some v => .ok (.numberLit v, newPos)

/-- The string-literal scanning loop of `parseString` (ends at a
closing quote or at the end of input; backslash escapes the next
character). -/
def parseStringLoop (inp : List Char) (pos : Nat) (acc : String) :
    Except ParseError (String × Nat) :=
  if _h : inp.length ≤ pos then .ok (acc, pos)
  else
    let c := currentChar inp pos
    if c = '"' then .ok (acc, pos)
    else if c = '\\' then
      let p1 := advancePos inp pos
      if inp.length ≤ p1 then .error ⟨"Незавершенная escape-последовательность", p1⟩
      else parseStringLoop inp (advancePos inp p1) (acc.push (currentChar inp p1))
    else parseStringLoop inp (advancePos inp pos) (acc.push c)
termination_by inp.length - pos
decreasing_by
  all_goals simp only [advancePos] at *
  all_goals split_ifs at * <;> omega

/-- `parseString`: opening quote, scan, closing quote. -/
def parseStringP (inp : List Char) (pos : Nat) :
    Except ParseError (FormulaNode × Nat) := do
  let p1 ← consumeTok inp pos "\"" "Ожидается открывающая кавычка"
  let (value, p2) ← parseStringLoop inp p1 ""
  let p3 ← consumeTok inp p2 "\"" "Ожидается закрывающая кавычка"
  pure (.stringLit value, p3)

/-- `parseCellReference(prefix)`: keeps consuming letters, digits and
`$`, then delegates to `FormulaUtils.parseCellReference`. -/
def parseCellRefP (inp : List Char) (pos : Nat) (pre : String) :
    Except ParseError (FormulaNode × Nat) :=
  let cs := (inp.drop pos).takeWhile (fun c => isAlphaC c || isDigitC c || c = '$')
  let ref := pre ++ String.mk cs
  let newPos := pos + cs.length
  match parseCellReference ref with
  | .ok cr => .ok (.cell cr, newPos)
  | .error _ => .error ⟨"Неверная ссылка на ячейку: " ++ ref, newPos⟩

/-- One mode per recursive method of `FormulaParser`; the loop modes
carry the loop state (`left` operand, or the function name and the
argument accumulator) exactly as the source's local variables do. -/
inductive ParseMode where
  | expr
  | rng
  | cmp
  | cmpLoop (left : FormulaNode)
  | add
  | addLoop (left : FormulaNode)
  | mul
  | mulLoop (left : FormulaNode)
  | pow
  | powLoop (left : FormulaNode)
  | un
  | primary
  | fnCall (name : String)
  | fnArgs (name : String) (acc : List FormulaNode)

/-- The mutually recursive grammar methods of `FormulaParser` as one
fuel-indexed function (one constructor of `ParseMode` per method, so
that concrete runs reduce definitionally).  Each recursive call burns
one unit of fuel; `parseFormula` supplies more fuel than the parser
can consume on its input, making the fuel-exhaustion error
unreachable.  The only structural liberty taken is in the function
modes: the source's `parseFunction` consumes `)` after its argument
loop returns, while here the loop's last iteration (`fnArgs`) and the
empty-argument branch (`fnCall`) consume the `)` themselves — the same
characters are consumed in the same order with the same errors. -/
def parseStep : Nat → ParseMode → List Char → Nat → Except ParseError (FormulaNode × Nat)
  | 0, _, _, pos => .error ⟨"fuel", pos⟩
  | fuel + 1, .expr, inp, pos => parseStep fuel .rng inp pos
  | fuel + 1, .rng, inp, pos => do
    let (left, p1) ← parseStep fuel .cmp inp pos
    match matchTokens inp p1 [":"] with
    | some p2 => do
      let (right, p3) ← parseStep fuel .cmp inp p2
      match left, right with
      | .cell l, .cell r =>
        pure (.rangeN
          { startRow := l.row, startCol := l.col
            endRow := r.row, endCol := r.col
            absoluteStartRow := l.absoluteRow, absoluteStartCol := l.absoluteCol
            absoluteEndRow := r.absoluteRow, absoluteEndCol := r.absoluteCol }, p3)
      | _, _ => .error ⟨"Диапазон может содержать только ссылки на ячейки", p3⟩
    | none => pure (left, p1)
  | fuel + 1, .cmp, inp, pos => do
    let (left, p1) ← parseStep fuel .add inp pos
    parseStep fuel (.cmpLoop left) inp p1
  | fuel + 1, .cmpLoop left, inp, pos =>
    match matchTokens inp pos ["=", "<", ">", "<=", ">=", "<>"] with
    | some p2 => do
      let op := previousToken inp p2
      let (right, p3) ← parseStep fuel .add inp p2
      parseStep fuel (.cmpLoop (.binary op left right)) inp p3
    | none => pure (left, pos)
  | fuel + 1, .add, inp, pos => do
    let (left, p1) ← parseStep fuel .mul inp pos
    parseStep fuel (.addLoop left) inp p1
  | fuel + 1, .addLoop left, inp, pos =>
    match matchTokens inp pos ["+", "-"] with
    | some p2 => do
      let op := previousToken inp p2
      let (right, p3) ← parseStep fuel .mul inp p2
      parseStep fuel (.addLoop (.binary op left right)) inp p3
    | none => pure (left, pos)
  | fuel + 1, .mul, inp, pos => do
    let (left, p1) ← parseStep fuel .pow inp pos
    parseStep fuel (.mulLoop left) inp p1
  | fuel + 1, .mulLoop left, inp, pos =>
    match matchTokens inp pos ["*", "/"] with
    | some p2 => do
      let op := previousToken inp p2
      let (right, p3) ← parseStep fuel .pow inp p2
      parseStep fuel (.mulLoop (.binary op left right)) inp p3
    | none => pure (left, pos)
  | fuel + 1, .pow, inp, pos => do
    let (left, p1) ← parseStep fuel .un inp pos
    parseStep fuel (.powLoop left) inp p1
  | fuel + 1, .powLoop left, inp, pos =>
    match matchTokens inp pos ["^"] with
    | some p2 => do
      let op := previousToken inp p2
      let (right, p3) ← parseStep fuel .un inp p2
      parseStep fuel (.powLoop (.binary op left right)) inp p3
    | none => pure (left, pos)
  | fuel + 1, .un, inp, pos =>
    match matchTokens inp pos ["+", "-"] with
    | some p1 => do
      let op := previousToken inp p1
      let (operand, p2) ← parseStep fuel .un inp p1
      pure (.unary op operand, p2)
    | none => parseStep fuel .primary inp pos
  | fuel + 1, .primary, inp, pos =>
    let c := currentChar inp pos
    if isDigitC c then parseNumberP inp pos
    else if c = '"' then parseStringP inp pos
    else if isAlphaC c then
      let (name, p1) := parseIdentifier inp pos
      if currentChar inp p1 = '(' then parseStep fuel (.fnCall name) inp p1
      else parseCellRefP inp p1 name
    else if c = '$' then
      let p1 := advancePos inp pos
      let (name, p2) := parseIdentifier inp p1
      parseCellRefP inp p2 ("$" ++ name)
    else if c = '(' then do
      let p1 := advancePos inp pos
      let (expr, p2) ← parseStep fuel .expr inp p1
      let p3 ← consumeTok inp p2 ")" "Ожидается закрывающая скобка"
      pure (expr, p3)
    else .error ⟨"Неожиданный символ: " ++ String.singleton c, pos⟩
  | fuel + 1, .fnCall name, inp, pos => do
    let p1 ← consumeTok inp pos "(" "Ожидается открывающая скобка после имени функции"
    if currentChar inp p1 = ')' then do
      let p3 ← consumeTok inp p1 ")" "Ожидается закрывающая скобка"
      pure (.functionCall (jsToUpper name) [], p3)
    else parseStep fuel (.fnArgs name []) inp p1
  | fuel + 1, .fnArgs name acc, inp, pos => do
    let (arg, p1) ← parseStep fuel .expr inp pos
    match matchTokens inp p1 [","] with
    | some p2 => parseStep fuel (.fnArgs name (acc ++ [arg])) inp p2
    | none => do
      let p3 ← consumeTok inp p1 ")" "Ожидается закрывающая скобка"
      pure (.functionCall (jsToUpper name) (acc ++ [arg]), p3)

/-- `parseExpression` (lowest precedence). -/
def parseExpressionF (fuel : Nat) (inp : List Char) (pos : Nat) :
    Except ParseError (FormulaNode × Nat) :=
  parseStep fuel .expr inp pos

/-- `FormulaParser.parse`: strips the mandatory `=`, parses an
expression, and rejects trailing input. The fuel bound exceeds one
unit per parser call on this input (each call either moves the cursor
or descends at most eight grammar levels before consuming). -/
def parseFormula (formula : String) : Except ParseError FormulaAST :=
  if formula.data.take 1 ≠ ['='] then .error ⟨"Формула должна начинаться с =", 0⟩
  else
    let inp := (formula.drop 1).data
    match parseExpressionF (16 * (inp.length + 2) + 16) inp 0 with
    | .error e => .error e
    | .ok (root, p) =>
      if p < inp.length then
        .error ⟨"Неожиданный символ: " ++ String.singleton (currentChar inp p), p⟩
      else .ok { root := root, originalFormula := formula }

/-! ## FormulaEngine (`FormulaEngine.ts`)

`CellValue` is a tagged record; the `value` slot is an arbitrary
JavaScript value (`JsVal`): number, string, boolean (comparison
results), array of cell values (range results) or null. -/

/-- The `type` tag of a `CellValue`. -/
inductive CVType where
  | number
  | string
  | error
  | empty
deriving DecidableEq, Repr

mutual
/-- The dynamic `value` slot of a `CellValue`. -/
inductive JsVal where
  | num (q : Rat)
  | str (s : String)
  | jbool (b : Bool)
  | arr (elems : List CellValue)
  | jnull

/-- `CellValue { value, type }`. -/
inductive CellValue where
  | mk (value : JsVal) (vtype : CVType)
end

/-- `value` field accessor. -/
def CellValue.value : CellValue → JsVal
  | .mk v _ => v

/-- `type` field accessor. -/
def CellValue.vtype : CellValue → CVType
  | .mk _ t => t

/-- `Array.isArray(value)`. -/
def isArrV : JsVal → Bool
  | .arr _ => true
  | _ => false

/-- JavaScript `ToNumber` on a raw value, used exactly where the
source's operators coerce: the arithmetic operators, `Math.pow`, the
relational comparisons, unary `+`/`-`, and the aggregate loops'
`+=`/`<`/`>` on raw cell values. A boolean coerces to 1/0 (so `true +
1` is 2 and `true < 2` holds), `null` to 0. The `str` and `arr` cases
are unreachable in those positions on engine-produced data
(`FormulaEngine.toNumber` turns string-typed cells into numbers before
any operator sees them) and are given `parseFloat`-style results for
totality. -/
def jsNumCoe : JsVal → Rat
  | .num q => q
  | .jbool b => if b then 1 else 0
  | .jnull => 0
  | .str s => (jsParseFloat s).getD 0
  | .arr _ => 0

/-- JavaScript strict equality `===` on raw values: no coercion, so
operands of different runtime types are unequal (`true === 1` is
false, `false === 0` is false). Arrays compare by reference in
JavaScript, and the operands of a comparison are always two distinct
freshly built arrays, so the `arr`/`arr` case is `false`. -/
def jsStrictEq : JsVal → JsVal → Bool
  | .num a, .num b => decide (a = b)
  | .str a, .str b => decide (a = b)
  | .jbool a, .jbool b => a == b
  | .jnull, .jnull => true
  | _, _ => false

/-- `Math.pow`, restricted to the rational model: exact for integer
exponents (the only exponents the claims exercise); a fractional
exponent, real-valued in JavaScript, is mapped to `0`. -/
def jsPow (a b : Rat) : Rat :=
  if b.den = 1 then
    if 0 ≤ b.num then a ^ b.num.toNat else (a ^ (-b.num).toNat)⁻¹
  else 0

/-- The evaluation context (`FormulaContext`): total lookup functions,
ultimately backed by the sparse cell store. -/
structure FormulaContext where
  getCellValue : Int → Int → CellValue
  getCellRange : Int → Int → Int → Int → List CellValue

/-- The inclusive enumeration `for (i = lo; i <= hi; i++)`. -/
def intRangeList (lo hi : Int) : List Int :=
  (List.range (hi + 1 - lo).toNat).map (fun n => lo + n)

/-- `FormulaEngine.toNumber`: despite its declared `number` return
type, a number-typed cell's raw value is returned UNCHANGED — at
runtime it may be a boolean (a comparison result) or an array (a
range). A string-typed cell goes through `parseFloat`, NaN ↦ 0; empty
and error cells read 0. (A string-typed cell whose raw value is not a
string never arises; `parseFloat` of its stringification is modelled
as the number itself for `num` and 0 otherwise.) -/
def toNumber (v : CellValue) : JsVal :=
  match v.vtype with
  | .number => v.value
  | .string =>
    match v.value with
    | .str s =>
      match jsParseFloat s with
      | none => .num 0
      | some q => .num q
    | .num q => .num q
    | _ => .num 0
  | .empty => .num 0
  | .error => .num 0

/-- `FormulaEngine.evaluateBinaryOperation` after both operands are
evaluated. `leftNum`/`rightNum` are the source `toNumber` results —
raw values for number-typed operands. The arithmetic operators, `^`
and the relational comparisons coerce numerically (`jsNumCoe`), as the
JavaScript operators do (two raw-string operands, which `<` would
compare lexicographically, never arise: `toNumber` yields strings only
from number-typed cells holding strings, which nothing produces). `=`
and `<>` are the source's strict `===`/`!==`, which do NOT coerce. The
division guard is the strict `rightNum === 0`, so a divisor that
merely coerces to 0 (a boolean `false`) skips the `#DIV/0!` branch;
JavaScript then yields an IEEE infinity, which the rational model
(where division by zero gives 0) cannot hold — no claim reads that
quotient. Comparisons return the raw boolean tagged `number`. -/
def evaluateBinaryOperation (op : String) (left right : CellValue) :
    Except String CellValue :=
  let ln := toNumber left
  let rn := toNumber right
  match op with
  | "+" => .ok ⟨.num (jsNumCoe ln + jsNumCoe rn), .number⟩
  | "-" => .ok ⟨.num (jsNumCoe ln - jsNumCoe rn), .number⟩
  | "*" => .ok ⟨.num (jsNumCoe ln * jsNumCoe rn), .number⟩
  | "/" =>
    if jsStrictEq rn (.num 0) then .ok ⟨.str "#DIV/0!", .error⟩
    else .ok ⟨.num (jsNumCoe ln / jsNumCoe rn), .number⟩
  | "^" => .ok ⟨.num (jsPow (jsNumCoe ln) (jsNumCoe rn)), .number⟩
  | "=" => .ok ⟨.jbool (jsStrictEq ln rn), .number⟩
  | "<" => .ok ⟨.jbool (decide (jsNumCoe ln < jsNumCoe rn)), .number⟩
  | ">" => .ok ⟨.jbool (decide (jsNumCoe rn < jsNumCoe ln)), .number⟩
  | "<=" => .ok ⟨.jbool (decide (jsNumCoe ln ≤ jsNumCoe rn)), .number⟩
  | ">=" => .ok ⟨.jbool (decide (jsNumCoe rn ≤ jsNumCoe ln)), .number⟩
  | "<>" => .ok ⟨.jbool (!jsStrictEq ln rn), .number⟩
  | _ => .error ("Неизвестный оператор: " ++ op)

/-- `FormulaEngine.evaluateUnaryOperation` after the operand is
evaluated; JavaScript unary `+`/`-` coerce numerically (`+true` is
1). -/
def evaluateUnaryOperation (op : String) (v : CellValue) :
    Except String CellValue :=
  let n := jsNumCoe (toNumber v)
  match op with
  | "+" => .ok ⟨.num n, .number⟩
  | "-" => .ok ⟨.num (-n), .number⟩
  | _ => .error ("Неизвестный унарный оператор: " ++ op)

/-- Body of the `value.forEach` loop inside `evaluateSum`. -/
def sumInner (acc : Rat × Bool) (cv : CellValue) : Rat × Bool :=
  if cv.vtype = CVType.number then (acc.1 + jsNumCoe cv.value, true) else acc

/-- Body of the `for (const arg of args)` loop of `evaluateSum`. -/
def sumStep (acc : Rat × Bool) (a : CellValue) : Rat × Bool :=
  if a.vtype = CVType.number ∧ isArrV a.value = false then
    (acc.1 + jsNumCoe a.value, true)
  else if a.vtype = CVType.empty then acc
  else
    match a.value with
    | .arr l => l.foldl sumInner acc
    | _ => acc

/-- `FormulaEngine.evaluateSum`: scalar numbers add and mark
`hasNumbers`; empties are skipped; array values contribute their
number-typed elements; `hasNumbers ? sum : 0`. -/
def evaluateSum (args : List CellValue) : Except String CellValue :=
  let res := args.foldl sumStep ((0 : Rat), false)
  .ok ⟨.num (if res.2 then res.1 else 0), .number⟩

/-- `if (min === null || v < min) min = v`. -/
def updateMinO (acc : Option Rat) (v : Rat) : Option Rat :=
  match acc with
  | none => some v
  | some m => if v < m then some v else some m

/-- `if (max === null || v > max) max = v`. -/
def updateMaxO (acc : Option Rat) (v : Rat) : Option Rat :=
  match acc with
  | none => some v
  | some m => if m < v then some v else some m

/-- Body of the `value.forEach` loop inside `evaluateMin`. -/
def minInner (acc : Option Rat) (cv : CellValue) : Option Rat :=
  if cv.vtype = CVType.number then updateMinO acc (jsNumCoe cv.value) else acc

/-- Body of the `for (const arg of args)` loop of `evaluateMin`. -/
def minStep (acc : Option Rat) (a : CellValue) : Option Rat :=
  if a.vtype = CVType.number ∧ isArrV a.value = false then
    updateMinO acc (jsNumCoe a.value)
  else
    match a.value with
    | .arr l => l.foldl minInner acc
    | _ => acc

/-- `FormulaEngine.evaluateMin`: `null` start, scalar numbers and
number-typed array elements update the minimum; `null` at the end
yields 0. -/
def evaluateMin (args : List CellValue) : Except String CellValue :=
  match args.foldl minStep none with
  | none => .ok ⟨.num 0, .number⟩
  | some m => .ok ⟨.num m, .number⟩

/-- Body of the `value.forEach` loop inside `evaluateMax`. -/
def maxInner (acc : Option Rat) (cv : CellValue) : Option Rat :=
  if cv.vtype = CVType.number then updateMaxO acc (jsNumCoe cv.value) else acc

/-- Body of the `for (const arg of args)` loop of `evaluateMax`. -/
def maxStep (acc : Option Rat) (a : CellValue) : Option Rat :=
  if a.vtype = CVType.number ∧ isArrV a.value = false then
    updateMaxO acc (jsNumCoe a.value)
  else
    match a.value with
    | .arr l => l.foldl maxInner acc
    | _ => acc

/-- `FormulaEngine.evaluateMax`, symmetric to `evaluateMin`. -/
def evaluateMax (args : List CellValue) : Except String CellValue :=
  match args.foldl maxStep none with
  | none => .ok ⟨.num 0, .number⟩
  | some m => .ok ⟨.num m, .number⟩

/-- Body of the `value.forEach` loop inside `evaluateAverage`. -/
def avgInner (acc : Rat × Nat) (cv : CellValue) : Rat × Nat :=
  if cv.vtype = CVType.number then (acc.1 + jsNumCoe cv.value, acc.2 + 1) else acc

/-- Body of the `for (const arg of args)` loop of `evaluateAverage`. -/
def avgStep (acc : Rat × Nat) (a : CellValue) : Rat × Nat :=
  if a.vtype = CVType.number ∧ isArrV a.value = false then
    (acc.1 + jsNumCoe a.value, acc.2 + 1)
  else
    match a.value with
    | .arr l => l.foldl avgInner acc
    | _ => acc

/-- `FormulaEngine.evaluateAverage`: sum and count of scalar numbers
and number-typed array elements; count 0 yields 0. -/
def evaluateAverage (args : List CellValue) : Except String CellValue :=
  let res := args.foldl avgStep ((0 : Rat), (0 : Nat))
  if res.2 = 0 then .ok ⟨.num 0, .number⟩
  else .ok ⟨.num (res.1 / (res.2 : Rat)), .number⟩

/-- Body of the `value.forEach` loop inside `evaluateCount`. -/
def countInner (acc : Nat) (cv : CellValue) : Nat :=
  if cv.vtype = CVType.number ∨ cv.vtype = CVType.string then acc + 1 else acc

/-- Body of the `for (const arg of args)` loop of `evaluateCount`. -/
def countStep (acc : Nat) (a : CellValue) : Nat :=
  if a.vtype = CVType.number ∨ a.vtype = CVType.string then acc + 1
  else
    match a.value with
    | .arr l => l.foldl countInner acc
    | _ => acc

/-- `FormulaEngine.evaluateCount`: a scalar argument typed number or
string counts once; otherwise an array argument counts its number- or
string-typed elements. -/
def evaluateCount (args : List CellValue) : Except String CellValue :=
  .ok ⟨.num ((args.foldl countStep 0 : Nat) : Rat), .number⟩

/-- `FormulaEngine.evaluateFunction` dispatch on the (already
upper-cased by the parser) function name; an unknown name throws. -/
def evaluateFunction (name : String) (args : List CellValue) :
    Except String CellValue :=
  match name with
  | "SUM" => evaluateSum args
  | "MIN" => evaluateMin args
  | "MAX" => evaluateMax args
  | "AVERAGE" => evaluateAverage args
  | "COUNT" => evaluateCount args
  | _ => .error ("Неизвестная функция: " ++ name)

mutual
/-- `FormulaEngine.evaluateNode`: recursive evaluation over the node
sum type. The source's `default: throw (unknown node type)` arm is
unreachable in the closed model. -/
def evaluateNode (ctx : FormulaContext) : FormulaNode → Except String CellValue
  | .numberLit v => .ok ⟨.num v, .number⟩
  | .stringLit s => .ok ⟨.str s, .string⟩
  | .cell ref => .ok (ctx.getCellValue ref.row ref.col)
  | .rangeN rg =>
    .ok ⟨.arr (ctx.getCellRange rg.startRow rg.startCol rg.endRow rg.endCol), .number⟩
  | .functionCall name args => do
    let vals ← evaluateArgs ctx args
    evaluateFunction name vals
  | .binary op l r => do
    let lv ← evaluateNode ctx l
    let rv ← evaluateNode ctx r
    evaluateBinaryOperation op lv rv
  | .unary op x => do
    let v ← evaluateNode ctx x
    evaluateUnaryOperation op v

/-- Eager left-to-right evaluation of `func.args.map(evaluateNode)`. -/
def evaluateArgs (ctx : FormulaContext) : List FormulaNode → Except String (List CellValue)
  | [] => .ok []
  | a :: rest => do
    let v ← evaluateNode ctx a
    let vs ← evaluateArgs ctx rest
    pure (v :: vs)
end

/-- `FormulaEngine.evaluate`: the try/catch wrapper — an exception
from node evaluation becomes `{value: "#ERROR: " + error, type:
"error"}` (interpolating a thrown `Error` prints `Error: <message>`). -/
def engineEvaluate (ctx : FormulaContext) (ast : FormulaAST) : CellValue :=
  match evaluateNode ctx ast.root with
  | .ok v => v
  | .error m => ⟨.str ("#ERROR: " ++ "Error: " ++ m), .error⟩

/-! ## FormulaManager (`FormulaManager.ts`)

The per-cell formula registry is a JavaScript `Map` keyed by
`"row:col"` strings; it is modelled as an association list over
`Int × Int` keys in insertion order (the string key format is an
injective image of the pair). -/

/-- JavaScript `Map.get` on an association list. -/
def alGet {α β : Type} [DecidableEq α] (l : List (α × β)) (k : α) : Option β :=
  (l.find? (fun e => decide (e.1 = k))).map (fun e => e.2)

/-- JavaScript `Map.set`: overwrite in place, or append. -/
def alSet {α β : Type} [DecidableEq α] (l : List (α × β)) (k : α) (v : β) :
    List (α × β) :=
  if (l.find? (fun e => decide (e.1 = k))).isSome then
    l.map (fun e => if e.1 = k then (k, v) else e)
  else l ++ [(k, v)]

/-- JavaScript `Map.delete`: removes the entry for the key. -/
def alDelete {α β : Type} [DecidableEq α] (l : List (α × β)) (k : α) :
    List (α × β) :=
  l.eraseP (fun e => decide (e.1 = k))

/-- JavaScript `Set.add` on an insertion-ordered list model. -/
def addKey (l : List (Int × Int)) (k : Int × Int) : List (Int × Int) :=
  if k ∈ l then l else l ++ [k]

/-- `FormulaInfo { ast, dependencies, dependents }`; the dependency
sets of `"row:col"` keys are insertion-ordered lists of pairs. -/
structure FormulaInfo where
  ast : FormulaAST
  dependencies : List (Int × Int)
  dependents : List (Int × Int)

/-- The manager's formula registry (`Map<string, FormulaInfo>`). -/
abbrev Registry := List ((Int × Int) × FormulaInfo)

mutual
/-- `FormulaManager.extractDependencies`'s `traverse`, with the `Set`
accumulator made explicit: cells add their key, ranges add every
covered coordinate (rows outer, columns inner), the rest recurse in
source order. -/
def extractDeps : List (Int × Int) → FormulaNode → List (Int × Int)
  | acc, .cell ref => addKey acc (ref.row, ref.col)
  | acc, .rangeN rg =>
    (intRangeList rg.startRow rg.endRow).foldl
      (fun a r =>
        (intRangeList rg.startCol rg.endCol).foldl (fun a2 c => addKey a2 (r, c)) a)
      acc
  | acc, .functionCall _ args => extractDepsList acc args
  | acc, .binary _ l r => extractDeps (extractDeps acc l) r
  | acc, .unary _ x => extractDeps acc x
  | acc, .numberLit _ => acc
  | acc, .stringLit _ => acc

/-- `args.forEach(traverse)`. -/
def extractDepsList : List (Int × Int) → List FormulaNode → List (Int × Int)
  | acc, [] => acc
  | acc, a :: rest => extractDepsList (extractDeps acc a) rest
end

/-- `FormulaManager.extractDependencies`. -/
def extractDependencies (node : FormulaNode) : List (Int × Int) :=
  extractDeps [] node

mutual
/-- `FormulaManager.formatFormula`: numbers via `toString`, strings
re-quoted verbatim (no escaping), references and ranges via
`FormulaUtils`, function names upper-cased with comma-joined
arguments, operators re-emitted infix with no parentheses. -/
def formatFormula : FormulaNode → String
  | .numberLit v => numToString v
  | .stringLit s => "\"" ++ s ++ "\""
  | .cell ref => formatCellReference ref
  | .rangeN rg => formatCellRange rg
  | .functionCall name args => jsToUpper name ++ "(" ++ formatArgsJoin args ++ ")"
  | .binary op l r => formatFormula l ++ op ++ formatFormula r
  | .unary op x => op ++ formatFormula x

/-- `node.args.map(format).join(',')`. -/
def formatArgsJoin : List FormulaNode → String
  | [] => ""
  | [a] => formatFormula a
  | a :: rest => formatFormula a ++ "," ++ formatArgsJoin rest
end

mutual
/-- `FormulaManager.shiftNode`: delegates cells and ranges to the
`FormulaUtils` shifters and rebuilds the remaining nodes around the
recursively shifted children; literals pass through. -/
def shiftNode (rowOffset colOffset : Int)
    (insertRow insertCol deleteRow deleteCol : Option Int) :
    FormulaNode → Except String FormulaNode
  | .cell ref => do
    let c ← shiftCellReference ref rowOffset colOffset insertRow insertCol deleteRow deleteCol
    pure (.cell c)
  | .rangeN rg => do
    let g ← shiftCellRange rg rowOffset colOffset insertRow insertCol deleteRow deleteCol
    pure (.rangeN g)
  | .functionCall name args => do
    let args' ← shiftNodeList rowOffset colOffset insertRow insertCol deleteRow deleteCol args
    pure (.functionCall name args')
  | .binary op l r => do
    let l' ← shiftNode rowOffset colOffset insertRow insertCol deleteRow deleteCol l
    let r' ← shiftNode rowOffset colOffset insertRow insertCol deleteRow deleteCol r
    pure (.binary op l' r')
  | .unary op x => do
    let x' ← shiftNode rowOffset colOffset insertRow insertCol deleteRow deleteCol x
    pure (.unary op x')
  | .numberLit v => pure (.numberLit v)
  | .stringLit s => pure (.stringLit s)

/-- `node.args.map(arg => shiftNode(arg, ...))`. -/
def shiftNodeList (rowOffset colOffset : Int)
    (insertRow insertCol deleteRow deleteCol : Option Int) :
    List FormulaNode → Except String (List FormulaNode)
  | [] => pure []
  | a :: rest => do
    let a' ← shiftNode rowOffset colOffset insertRow insertCol deleteRow deleteCol a
    let rest' ← shiftNodeList rowOffset colOffset insertRow insertCol deleteRow deleteCol rest
    pure (a' :: rest')
end

/-- `FormulaManager.shiftFormulaAST`: shifts the root and spreads the
rest of the record (so `originalFormula` is carried over untouched). -/
def shiftFormulaAST (ast : FormulaAST) (rowOffset colOffset : Int)
    (insertRow insertCol deleteRow deleteCol : Option Int) :
    Except String FormulaAST := do
  let root' ← shiftNode rowOffset colOffset insertRow insertCol deleteRow deleteCol ast.root
  pure { ast with root := root' }

/-- `FormulaManager.getFormula`: the stored `originalFormula`, or
null. -/
def getFormula (st : Registry) (row col : Int) : Option String :=
  (alGet st (row, col)).map (fun fi => fi.ast.originalFormula)

/-- `FormulaManager.evaluateFormula`: empty value when no formula is
registered, otherwise engine evaluation (whose own catch already
yields an error value, so the manager-level catch never fires). -/
def evaluateFormulaM (ctx : FormulaContext) (st : Registry) (row col : Int) :
    CellValue :=
  match alGet st (row, col) with
  | none => ⟨.jnull, .empty⟩
  | some fi => engineEvaluate ctx fi.ast

/-- `FormulaManager.rebuildDependencies`: clears every `dependents`
set and re-adds, for each registered formula, its key to the
`dependents` of each of its dependencies that is itself registered. -/
def rebuildDependencies (st : Registry) : Registry :=
  st.map (fun e =>
    (e.1, { e.2 with
              dependents := (st.filter (fun e2 => e.1 ∈ e2.2.dependencies)).map
                (fun e2 => e2.1) }))

/-- A recorded `updateFormulaCallback(row, col, text)` invocation. -/
abbrev CallbackCall := Int × Int × String

/-- `FormulaManager.handleRowInsertion(atRow)`: re-keys every formula
(own row ≥ atRow moves down one), shifts every tree with
`insertRow := atRow`, pushes `"=" + formatted` through the callback,
replaces the registry, rebuilds dependents. The final
`recalculateAllFormulas` sweep only evaluates and logs, so it is
stateless and omitted. -/
def rowInsStep (atRow : Int) (acc : Registry × List CallbackCall)
    (e : (Int × Int) × FormulaInfo) :
    Except String (Registry × List CallbackCall) := do
  let row := e.1.1
  let col := e.1.2
  let newRow := if row ≥ atRow then row + 1 else row
  let shifted ← shiftFormulaAST e.2.ast 0 0 (some atRow) none none none
  let newFormulaString := formatFormula shifted.root
  let calls := acc.2 ++ [(newRow, col, "=" ++ newFormulaString)]
  let nf := alSet acc.1 (newRow, col)
    { ast := shifted
      dependencies := extractDependencies shifted.root
      dependents := [] }
  pure (nf, calls)

def handleRowInsertion (atRow : Int) (st : Registry) :
    Except String (Registry × List CallbackCall) := do
  let res ← st.foldlM (rowInsStep atRow) ([], [])
  pure (rebuildDependencies res.1, res.2)

/-- `FormulaManager.handleRowDeletion(atRow)`: formulas on the deleted
row are dropped; the rest are re-keyed (own row > atRow moves up one)
and shifted with `deleteRow := atRow`, which throws on a dangling
reference and aborts the sweep. -/
def rowDelStep (atRow : Int) (acc : Registry × List CallbackCall)
    (e : (Int × Int) × FormulaInfo) :
    Except String (Registry × List CallbackCall) := do
  let row := e.1.1
  let col := e.1.2
  if row = atRow then pure acc
  else do
    let newRow := if row > atRow then row - 1 else row
    let shifted ← shiftFormulaAST e.2.ast 0 0 none none (some atRow) none
    let newFormulaString := formatFormula shifted.root
    let calls := acc.2 ++ [(newRow, col, "=" ++ newFormulaString)]
    let nf := alSet acc.1 (newRow, col)
      { ast := shifted
        dependencies := extractDependencies shifted.root
        dependents := [] }
    pure (nf, calls)

def handleRowDeletion (atRow : Int) (st : Registry) :
    Except String (Registry × List CallbackCall) := do
  let res ← st.foldlM (rowDelStep atRow) ([], [])
  pure (rebuildDependencies res.1, res.2)

/-- `FormulaManager.handleColumnInsertion(atCol)`, the column analogue
of row insertion. -/
def colInsStep (atCol : Int) (acc : Registry × List CallbackCall)
    (e : (Int × Int) × FormulaInfo) :
    Except String (Registry × List CallbackCall) := do
  let row := e.1.1
  let col := e.1.2
  let newCol := if col ≥ atCol then col + 1 else col
  let shifted ← shiftFormulaAST e.2.ast 0 0 none (some atCol) none none
  let newFormulaString := formatFormula shifted.root
  let calls := acc.2 ++ [(row, newCol, "=" ++ newFormulaString)]
  let nf := alSet acc.1 (row, newCol)
    { ast := shifted
      dependencies := extractDependencies shifted.root
      dependents := [] }
  pure (nf, calls)

def handleColumnInsertion (atCol : Int) (st : Registry) :
    Except String (Registry × List CallbackCall) := do
  let res ← st.foldlM (colInsStep atCol) ([], [])
  pure (rebuildDependencies res.1, res.2)

/-- `FormulaManager.handleColumnDeletion(atCol)`, the column analogue
of row deletion. -/
def colDelStep (atCol : Int) (acc : Registry × List CallbackCall)
    (e : (Int × Int) × FormulaInfo) :
    Except String (Registry × List CallbackCall) := do
  let row := e.1.1
  let col := e.1.2
  if col = atCol then pure acc
  else do
    let newCol := if col > atCol then col - 1 else col
    let shifted ← shiftFormulaAST e.2.ast 0 0 none none none (some atCol)
    let newFormulaString := formatFormula shifted.root
    let calls := acc.2 ++ [(row, newCol, "=" ++ newFormulaString)]
    let nf := alSet acc.1 (row, newCol)
      { ast := shifted
        dependencies := extractDependencies shifted.root
        dependents := [] }
    pure (nf, calls)

def handleColumnDeletion (atCol : Int) (st : Registry) :
    Except String (Registry × List CallbackCall) := do
  let res ← st.foldlM (colDelStep atCol) ([], [])
  pure (rebuildDependencies res.1, res.2)

/-! ## SparseMatrix (the sparse cell store)

Coordinates are the grid's non-negative indices (`Nat`), matching the
data model; `totalCells` is an `Int` because `importFromJSON` installs
it straight from the payload and `removeCell` decrements it blindly.
`undefined` and `null` stored values are both modelled as `snull`
(they are indistinguishable to every read in this class). Block keys
`"blockRow_blockCol"` and local keys `"localRow_localCol"` are
modelled as `Nat` pairs (the string formatting is injective). -/

/-- Raw values held by the store, with JavaScript falsiness. -/
inductive SMVal where
  | num (q : Rat)
  | str (s : String)
  | sbool (b : Bool)
  | snull
deriving DecidableEq, Repr

/-- JavaScript falsiness of a stored value (`0`, `''`, `false`,
`null`). -/
def smFalsy : SMVal → Bool
  | .num q => decide (q = 0)
  | .str s => decide (s = "")
  | .sbool b => !b
  | .snull => true

/-- A block: local-key → raw value. -/
abbrev SMBlock := List ((Nat × Nat) × SMVal)

/-- The store state: block map, block size, cell counter. -/
structure SparseMatrix where
  blocks : List ((Nat × Nat) × SMBlock)
  blockSize : Nat
  totalCells : Int

/-- `new SparseMatrix(blockSize = 1000)`. -/
def smNew (blockSize : Nat := 1000) : SparseMatrix :=
  { blocks := [], blockSize := blockSize, totalCells := 0 }

/-- `getBlockKey`: `floor(row / blockSize), floor(col / blockSize)`. -/
def getBlockKey (m : SparseMatrix) (row col : Nat) : Nat × Nat :=
  (row / m.blockSize, col / m.blockSize)

/-- `getCellKey`: `row % blockSize, col % blockSize`. -/
def getCellKey (m : SparseMatrix) (row col : Nat) : Nat × Nat :=
  (row % m.blockSize, col % m.blockSize)

/-- `SparseMatrix.removeCell`: deletes the entry if present, deletes
the block when it becomes empty, decrements the counter. -/
def removeCell (m : SparseMatrix) (row col : Nat) : SparseMatrix :=
  let bk := getBlockKey m row col
  let ck := getCellKey m row col
  match alGet m.blocks bk with
  | none => m
  | some block =>
    if (alGet block ck).isSome then
      let block' := alDelete block ck
      let blocks' := alSet m.blocks bk block'
      let blocks'' := if block'.length = 0 then alDelete blocks' bk else blocks'
      { m with blocks := blocks'', totalCells := m.totalCells - 1 }
    else m

/-- `SparseMatrix.setCell`: an empty value (`null`/`undefined`/`''`)
delegates to `removeCell`; otherwise the owning block is created if
absent, the value stored, and the counter incremented only when the
coordinate was previously vacant. -/
def setCell (m : SparseMatrix) (row col : Nat) (value : SMVal) : SparseMatrix :=
  if value = .snull ∨ value = .str "" then removeCell m row col
  else
    let bk := getBlockKey m row col
    let ck := getCellKey m row col
    let blocks1 :=
      if (alGet m.blocks bk).isSome then m.blocks else alSet m.blocks bk []
    let block := (alGet blocks1 bk).getD []
    let hadValue := (alGet block ck).isSome
    let blocks2 := alSet blocks1 bk (alSet block ck value)
    { m with
        blocks := blocks2
        totalCells := if hadValue then m.totalCells else m.totalCells + 1 }

/-- `SparseMatrix.getCell`: `block.get(cellKey) || null` — a missing
block or entry reads as null, and so does any falsy stored value. -/
def getCell (m : SparseMatrix) (row col : Nat) : SMVal :=
  match alGet m.blocks (getBlockKey m row col) with
  | none => .snull
  | some block =>
    match alGet block (getCellKey m row col) with
    | none => .snull
    | some v => if smFalsy v then .snull else v

/-- `SparseMatrix.hasCell`: `block.has(cellKey)`. -/
def hasCell (m : SparseMatrix) (row col : Nat) : Bool :=
  match alGet m.blocks (getBlockKey m row col) with
  | none => false
  | some block => (alGet block (getCellKey m row col)).isSome

/-- `SparseMatrix.clear`. -/
def clearSM (m : SparseMatrix) : SparseMatrix :=
  { m with blocks := [], totalCells := 0 }

/-- `SparseMatrix.optimize`: removes blocks left with zero entries
(the surrounding logging reads stats only). -/
def optimizeSM (m : SparseMatrix) : SparseMatrix :=
  { m with blocks := m.blocks.filter (fun e => e.2.length ≠ 0) }

/-- `getStats().totalCells` (the stats record reports the counter
field verbatim). -/
def getStatsTotalCells (m : SparseMatrix) : Int :=
  m.totalCells

/-- The payload of `importFromJSON` after `JSON.parse` (the JSON
plumbing itself is not at issue in any claim): optional `blockSize`
and `totalCells`, and a block map in which a `none` entry stands for a
`blockData` that is not a truthy object (such entries are skipped). -/
structure ImportData where
  blockSize : Option Nat
  totalCells : Option Int
  blocks : List ((Nat × Nat) × Option SMBlock)

/-- `SparseMatrix.importFromJSON` on a parsed payload: `blockSize ||
1000` and `totalCells || 0` are installed verbatim, the block map is
cleared and refilled with every truthy-object block exactly as
supplied. -/
def importFromJSONData (_m : SparseMatrix) (d : ImportData) : SparseMatrix :=
  { blockSize :=
      match d.blockSize with
      | some bs => if bs = 0 then 1000 else bs
      | none => 1000
    totalCells :=
      match d.totalCells with
      | some t => t
      | none => 0
    blocks :=
      d.blocks.foldl
        (fun acc e =>
          match e.2 with
          | some bd => alSet acc e.1 bd
          | none => acc)
        [] }

/-- The block-store invariant of the specification: no block with zero
entries is present, and the cell counter equals the sum of the
per-block entry counts. -/
def SMInv (m : SparseMatrix) : Prop :=
  (∀ b ∈ m.blocks, b.2.length ≠ 0) ∧
    m.totalCells = (m.blocks.map (fun b => (b.2.length : Int))).sum

/-! ## Shift-rule characterisations

The four structural-edit handlers call `shiftCellReference` /
`shiftCellRange` with offsets 0 and exactly one of the four edit
parameters set. The lemmas below solve those specialisations in
closed form, and the `specShift…` functions state the
specification's reference-rewriting rule as a tree map. -/

theorem shiftCellReference_insertRow (ref : CellRef) (k : Int) :
    shiftCellReference ref 0 0 (some k) none none none =
      .ok { ref with
              row := if ref.absoluteRow = false ∧ k ≤ ref.row then ref.row + 1
                     else ref.row } := by
  rcases ref with ⟨row, col, ar, ac⟩
  cases ar <;> cases ac <;>
    simp [shiftCellReference, ge_iff_le, pure, Except.pure, Except.bind, bind] <;>
    split_ifs <;> first | rfl | omega | simp_all

theorem shiftCellReference_deleteRow (ref : CellRef) (k : Int) :
    shiftCellReference ref 0 0 none none (some k) none =
      (if ref.absoluteRow = false ∧ ref.row = k then
        .error ("Ссылка на удаленную ячейку: " ++ formatCellReference ref)
      else
        .ok { ref with
                row := if ref.absoluteRow = false ∧ k < ref.row then ref.row - 1
                       else ref.row }) := by
  rcases ref with ⟨row, col, ar, ac⟩
  cases ar <;> cases ac <;>
    simp [shiftCellReference, gt_iff_lt, pure, Except.pure, Except.bind, bind] <;>
    split_ifs <;> first | rfl | omega | simp_all

theorem shiftCellReference_insertCol (ref : CellRef) (k : Int) :
    shiftCellReference ref 0 0 none (some k) none none =
      .ok { ref with
              col := if ref.absoluteCol = false ∧ k ≤ ref.col then ref.col + 1
                     else ref.col } := by
  rcases ref with ⟨row, col, ar, ac⟩
  cases ar <;> cases ac <;>
    simp [shiftCellReference, ge_iff_le, pure, Except.pure, Except.bind, bind] <;>
    split_ifs <;> first | rfl | omega | simp_all

theorem shiftCellReference_deleteCol (ref : CellRef) (k : Int) :
    shiftCellReference ref 0 0 none none none (some k) =
      (if ref.absoluteCol = false ∧ ref.col = k then
        .error ("Ссылка на удаленную ячейку: " ++ formatCellReference ref)
      else
        .ok { ref with
                col := if ref.absoluteCol = false ∧ k < ref.col then ref.col - 1
                       else ref.col }) := by
  rcases ref with ⟨row, col, ar, ac⟩
  cases ar <;> cases ac <;>
    simp [shiftCellReference, gt_iff_lt, pure, Except.pure, Except.bind, bind] <;>
    split_ifs <;> first | rfl | omega | simp_all

/-- The start endpoint of a range, packaged as the cell reference the
source synthesises for it. -/
def rangeStartRef (rg : CellRangeRef) : CellRef :=
  { row := rg.startRow, col := rg.startCol
    absoluteRow := rg.absoluteStartRow, absoluteCol := rg.absoluteStartCol }

/-- The end endpoint of a range, packaged as a cell reference. -/
def rangeEndRef (rg : CellRangeRef) : CellRef :=
  { row := rg.endRow, col := rg.endCol
    absoluteRow := rg.absoluteEndRow, absoluteCol := rg.absoluteEndCol }

theorem shiftCellRange_insertRow (rg : CellRangeRef) (k : Int) :
    shiftCellRange rg 0 0 (some k) none none none =
      .ok { rg with
              startRow := if rg.absoluteStartRow = false ∧ k ≤ rg.startRow then
                  rg.startRow + 1
                else rg.startRow
              endRow := if rg.absoluteEndRow = false ∧ k ≤ rg.endRow then
                  rg.endRow + 1
                else rg.endRow } := by
  simp [shiftCellRange, shiftCellReference_insertRow, pure, Except.pure,
    Except.bind, bind]

theorem shiftCellRange_insertCol (rg : CellRangeRef) (k : Int) :
    shiftCellRange rg 0 0 none (some k) none none =
      .ok { rg with
              startCol := if rg.absoluteStartCol = false ∧ k ≤ rg.startCol then
                  rg.startCol + 1
                else rg.startCol
              endCol := if rg.absoluteEndCol = false ∧ k ≤ rg.endCol then
                  rg.endCol + 1
                else rg.endCol } := by
  simp [shiftCellRange, shiftCellReference_insertCol, pure, Except.pure,
    Except.bind, bind]

theorem shiftCellRange_deleteRow (rg : CellRangeRef) (k : Int) :
    shiftCellRange rg 0 0 none none (some k) none =
      (if (rangeStartRef rg).absoluteRow = false ∧ (rangeStartRef rg).row = k then
        .error ("Ссылка на удаленную ячейку: " ++ formatCellReference (rangeStartRef rg))
      else if (rangeEndRef rg).absoluteRow = false ∧ (rangeEndRef rg).row = k then
        .error ("Ссылка на удаленную ячейку: " ++ formatCellReference (rangeEndRef rg))
      else
        .ok { rg with
                startRow := if rg.absoluteStartRow = false ∧ k < rg.startRow then
                    rg.startRow - 1
                  else rg.startRow
                endRow := if rg.absoluteEndRow = false ∧ k < rg.endRow then
                    rg.endRow - 1
                  else rg.endRow }) := by
  simp only [shiftCellRange, shiftCellReference_deleteRow, rangeStartRef, rangeEndRef]
  split_ifs <;> simp_all [pure, Except.pure, Except.bind, bind]

theorem shiftCellRange_deleteCol (rg : CellRangeRef) (k : Int) :
    shiftCellRange rg 0 0 none none none (some k) =
      (if (rangeStartRef rg).absoluteCol = false ∧ (rangeStartRef rg).col = k then
        .error ("Ссылка на удаленную ячейку: " ++ formatCellReference (rangeStartRef rg))
      else if (rangeEndRef rg).absoluteCol = false ∧ (rangeEndRef rg).col = k then
        .error ("Ссылка на удаленную ячейку: " ++ formatCellReference (rangeEndRef rg))
      else
        .ok { rg with
                startCol := if rg.absoluteStartCol = false ∧ k < rg.startCol then
                    rg.startCol - 1
                  else rg.startCol
                endCol := if rg.absoluteEndCol = false ∧ k < rg.endCol then
                    rg.endCol - 1
                  else rg.endCol }) := by
  simp only [shiftCellRange, shiftCellReference_deleteCol, rangeStartRef, rangeEndRef]
  split_ifs <;> simp_all [pure, Except.pure, Except.bind, bind]

mutual
/-- The specification's row-insertion rewriting rule as a tree map:
each reference with `absoluteRow` false and row ≥ k has its row
increased by one; absolute references and references strictly below k
(and every column) are untouched. Range endpoints carry their own
absolute flags. -/
def specShiftRowIns (k : Int) : FormulaNode → FormulaNode
  | .cell ref =>
    .cell { ref with
              row := if ref.absoluteRow = false ∧ k ≤ ref.row then ref.row + 1
                     else ref.row }
  | .rangeN rg =>
    .rangeN { rg with
                startRow := if rg.absoluteStartRow = false ∧ k ≤ rg.startRow then
                    rg.startRow + 1
                  else rg.startRow
                endRow := if rg.absoluteEndRow = false ∧ k ≤ rg.endRow then
                    rg.endRow + 1
                  else rg.endRow }
  | .functionCall name args => .functionCall name (specShiftRowInsList k args)
  | .binary op l r => .binary op (specShiftRowIns k l) (specShiftRowIns k r)
  | .unary op x => .unary op (specShiftRowIns k x)
  | .numberLit v => .numberLit v
  | .stringLit s => .stringLit s

/-- `specShiftRowIns` over an argument list. -/
def specShiftRowInsList (k : Int) : List FormulaNode → List FormulaNode
  | [] => []
  | a :: rest => specShiftRowIns k a :: specShiftRowInsList k rest
end

mutual
/-- The column-insertion rewriting rule as a tree map. -/
def specShiftColIns (k : Int) : FormulaNode → FormulaNode
  | .cell ref =>
    .cell { ref with
              col := if ref.absoluteCol = false ∧ k ≤ ref.col then ref.col + 1
                     else ref.col }
  | .rangeN rg =>
    .rangeN { rg with
                startCol := if rg.absoluteStartCol = false ∧ k ≤ rg.startCol then
                    rg.startCol + 1
                  else rg.startCol
                endCol := if rg.absoluteEndCol = false ∧ k ≤ rg.endCol then
                    rg.endCol + 1
                  else rg.endCol }
  | .functionCall name args => .functionCall name (specShiftColInsList k args)
  | .binary op l r => .binary op (specShiftColIns k l) (specShiftColIns k r)
  | .unary op x => .unary op (specShiftColIns k x)
  | .numberLit v => .numberLit v
  | .stringLit s => .stringLit s

/-- `specShiftColIns` over an argument list. -/
def specShiftColInsList (k : Int) : List FormulaNode → List FormulaNode
  | [] => []
  | a :: rest => specShiftColIns k a :: specShiftColInsList k rest
end

mutual
/-- The row-deletion rewriting rule on trees free of dangling
references: non-absolute rows strictly above the deleted row come down
by one. -/
def specShiftRowDel (k : Int) : FormulaNode → FormulaNode
  | .cell ref =>
    .cell { ref with
              row := if ref.absoluteRow = false ∧ k < ref.row then ref.row - 1
                     else ref.row }
  | .rangeN rg =>
    .rangeN { rg with
                startRow := if rg.absoluteStartRow = false ∧ k < rg.startRow then
                    rg.startRow - 1
                  else rg.startRow
                endRow := if rg.absoluteEndRow = false ∧ k < rg.endRow then
                    rg.endRow - 1
                  else rg.endRow }
  | .functionCall name args => .functionCall name (specShiftRowDelList k args)
  | .binary op l r => .binary op (specShiftRowDel k l) (specShiftRowDel k r)
  | .unary op x => .unary op (specShiftRowDel k x)
  | .numberLit v => .numberLit v
  | .stringLit s => .stringLit s

/-- `specShiftRowDel` over an argument list. -/
def specShiftRowDelList (k : Int) : List FormulaNode → List FormulaNode
  | [] => []
  | a :: rest => specShiftRowDel k a :: specShiftRowDelList k rest
end

mutual
/-- The column-deletion rewriting rule on danger-free trees. -/
def specShiftColDel (k : Int) : FormulaNode → FormulaNode
  | .cell ref =>
    .cell { ref with
              col := if ref.absoluteCol = false ∧ k < ref.col then ref.col - 1
                     else ref.col }
  | .rangeN rg =>
    .rangeN { rg with
                startCol := if rg.absoluteStartCol = false ∧ k < rg.startCol then
                    rg.startCol - 1
                  else rg.startCol
                endCol := if rg.absoluteEndCol = false ∧ k < rg.endCol then
                    rg.endCol - 1
                  else rg.endCol }
  | .functionCall name args => .functionCall name (specShiftColDelList k args)
  | .binary op l r => .binary op (specShiftColDel k l) (specShiftColDel k r)
  | .unary op x => .unary op (specShiftColDel k x)
  | .numberLit v => .numberLit v
  | .stringLit s => .stringLit s

/-- `specShiftColDel` over an argument list. -/
def specShiftColDelList (k : Int) : List FormulaNode → List FormulaNode
  | [] => []
  | a :: rest => specShiftColDel k a :: specShiftColDelList k rest
end

mutual
/-- A tree holds a reference dangling on deleted row k: a cell with
`absoluteRow` false at exactly row k, or a range endpoint likewise. -/
def hasDangRow (k : Int) : FormulaNode → Bool
  | .cell ref => decide (ref.absoluteRow = false ∧ ref.row = k)
  | .rangeN rg =>
    decide (rg.absoluteStartRow = false ∧ rg.startRow = k) ||
      decide (rg.absoluteEndRow = false ∧ rg.endRow = k)
  | .functionCall _ args => hasDangRowList k args
  | .binary _ l r => hasDangRow k l || hasDangRow k r
  | .unary _ x => hasDangRow k x
  | .numberLit _ => false
  | .stringLit _ => false

/-- `hasDangRow` over an argument list. -/
def hasDangRowList (k : Int) : List FormulaNode → Bool
  | [] => false
  | a :: rest => hasDangRow k a || hasDangRowList k rest
end

mutual
/-- The references of a tree dangling on deleted row k, in traversal
order (range endpoints as the synthesised cell references the source
formats into its error message). -/
def dangCellsRow (k : Int) : FormulaNode → List CellRef
  | .cell ref => if ref.absoluteRow = false ∧ ref.row = k then [ref] else []
  | .rangeN rg =>
    (if (rangeStartRef rg).absoluteRow = false ∧ (rangeStartRef rg).row = k then
      [rangeStartRef rg]
    else []) ++
      (if (rangeEndRef rg).absoluteRow = false ∧ (rangeEndRef rg).row = k then
        [rangeEndRef rg]
      else [])
  | .functionCall _ args => dangCellsRowList k args
  | .binary _ l r => dangCellsRow k l ++ dangCellsRow k r
  | .unary _ x => dangCellsRow k x
  | .numberLit _ => []
  | .stringLit _ => []

/-- `dangCellsRow` over an argument list. -/
def dangCellsRowList (k : Int) : List FormulaNode → List CellRef
  | [] => []
  | a :: rest => dangCellsRow k a ++ dangCellsRowList k rest
end

mutual
/-- Column-deletion analogue of `hasDangRow`. -/
def hasDangCol (k : Int) : FormulaNode → Bool
  | .cell ref => decide (ref.absoluteCol = false ∧ ref.col = k)
  | .rangeN rg =>
    decide (rg.absoluteStartCol = false ∧ rg.startCol = k) ||
      decide (rg.absoluteEndCol = false ∧ rg.endCol = k)
  | .functionCall _ args => hasDangColList k args
  | .binary _ l r => hasDangCol k l || hasDangCol k r
  | .unary _ x => hasDangCol k x
  | .numberLit _ => false
  | .stringLit _ => false

/-- `hasDangCol` over an argument list. -/
def hasDangColList (k : Int) : List FormulaNode → Bool
  | [] => false
  | a :: rest => hasDangCol k a || hasDangColList k rest
end

mutual
/-- Column-deletion analogue of `dangCellsRow`. -/
def dangCellsCol (k : Int) : FormulaNode → List CellRef
  | .cell ref => if ref.absoluteCol = false ∧ ref.col = k then [ref] else []
  | .rangeN rg =>
    (if (rangeStartRef rg).absoluteCol = false ∧ (rangeStartRef rg).col = k then
      [rangeStartRef rg]
    else []) ++
      (if (rangeEndRef rg).absoluteCol = false ∧ (rangeEndRef rg).col = k then
        [rangeEndRef rg]
      else [])
  | .functionCall _ args => dangCellsColList k args
  | .binary _ l r => dangCellsCol k l ++ dangCellsCol k r
  | .unary _ x => dangCellsCol k x
  | .numberLit _ => []
  | .stringLit _ => []

/-- `dangCellsCol` over an argument list. -/
def dangCellsColList (k : Int) : List FormulaNode → List CellRef
  | [] => []
  | a :: rest => dangCellsCol k a ++ dangCellsColList k rest
end

/-- The dangling-reference error message for a reference. -/
def dangMsg (c : CellRef) : String :=
  "Ссылка на удаленную ячейку: " ++ formatCellReference c

mutual
/-- `shiftNode` specialised to row insertion is exactly the
specification's tree map, and never fails. -/
theorem shiftNode_insertRow_eq (k : Int) :
    ∀ t, shiftNode 0 0 (some k) none none none t = .ok (specShiftRowIns k t)
  | .cell ref => by
    simp [shiftNode, specShiftRowIns, shiftCellReference_insertRow, pure,
      Except.pure, Except.bind, bind]
  | .rangeN rg => by
    simp [shiftNode, specShiftRowIns, shiftCellRange_insertRow, pure,
      Except.pure, Except.bind, bind]
  | .functionCall name args => by
    simp [shiftNode, specShiftRowIns, shiftNodeList_insertRow_eq k args, pure,
      Except.pure, Except.bind, bind]
  | .binary op l r => by
    simp [shiftNode, specShiftRowIns, shiftNode_insertRow_eq k l,
      shiftNode_insertRow_eq k r, pure, Except.pure, Except.bind, bind]
  | .unary op x => by
    simp [shiftNode, specShiftRowIns, shiftNode_insertRow_eq k x, pure,
      Except.pure, Except.bind, bind]
  | .numberLit v => by simp [shiftNode, specShiftRowIns, pure, Except.pure]
  | .stringLit s => by simp [shiftNode, specShiftRowIns, pure, Except.pure]

/-- List version of `shiftNode_insertRow_eq`. -/
theorem shiftNodeList_insertRow_eq (k : Int) :
    ∀ ts, shiftNodeList 0 0 (some k) none none none ts =
      .ok (specShiftRowInsList k ts)
  | [] => by simp [shiftNodeList, specShiftRowInsList, pure, Except.pure]
  | a :: rest => by
    simp [shiftNodeList, specShiftRowInsList, shiftNode_insertRow_eq k a,
      shiftNodeList_insertRow_eq k rest, pure, Except.pure, Except.bind, bind]
end

mutual
/-- `shiftNode` specialised to column insertion is the specification's
tree map, and never fails. -/
theorem shiftNode_insertCol_eq (k : Int) :
    ∀ t, shiftNode 0 0 none (some k) none none t = .ok (specShiftColIns k t)
  | .cell ref => by
    simp [shiftNode, specShiftColIns, shiftCellReference_insertCol, pure,
      Except.pure, Except.bind, bind]
  | .rangeN rg => by
    simp [shiftNode, specShiftColIns, shiftCellRange_insertCol, pure,
      Except.pure, Except.bind, bind]
  | .functionCall name args => by
    simp [shiftNode, specShiftColIns, shiftNodeList_insertCol_eq k args, pure,
      Except.pure, Except.bind, bind]
  | .binary op l r => by
    simp [shiftNode, specShiftColIns, shiftNode_insertCol_eq k l,
      shiftNode_insertCol_eq k r, pure, Except.pure, Except.bind, bind]
  | .unary op x => by
    simp [shiftNode, specShiftColIns, shiftNode_insertCol_eq k x, pure,
      Except.pure, Except.bind, bind]
  | .numberLit v => by simp [shiftNode, specShiftColIns, pure, Except.pure]
  | .stringLit s => by simp [shiftNode, specShiftColIns, pure, Except.pure]

/-- List version of `shiftNode_insertCol_eq`. -/
theorem shiftNodeList_insertCol_eq (k : Int) :
    ∀ ts, shiftNodeList 0 0 none (some k) none none ts =
      .ok (specShiftColInsList k ts)
  | [] => by simp [shiftNodeList, specShiftColInsList, pure, Except.pure]
  | a :: rest => by
    simp [shiftNodeList, specShiftColInsList, shiftNode_insertCol_eq k a,
      shiftNodeList_insertCol_eq k rest, pure, Except.pure, Except.bind, bind]
end

mutual
theorem shiftNode_deleteRow_cases (k : Int) :
    ∀ t, (hasDangRow k t = false →
        shiftNode 0 0 none none (some k) none t = .ok (specShiftRowDel k t)) ∧
      (hasDangRow k t = true →
        ∃ c ∈ dangCellsRow k t,
          shiftNode 0 0 none none (some k) none t = .error (dangMsg c))
  | .cell ref => by
    constructor
    · intro h
      simp only [hasDangRow, decide_eq_false_iff_not] at h
      simp [shiftNode, shiftCellReference_deleteRow, if_neg h, specShiftRowDel,
        pure, Except.pure, Except.bind, bind]
    · intro h
      simp only [hasDangRow, decide_eq_true_eq] at h
      refine ⟨ref, by simp [dangCellsRow, if_pos h], ?_⟩
      simp [shiftNode, shiftCellReference_deleteRow, if_pos h, dangMsg,
        pure, Except.pure, Except.bind, bind]
  | .rangeN rg => by
    constructor
    · intro h
      simp only [hasDangRow, Bool.or_eq_false_iff, decide_eq_false_iff_not] at h
      have hs : ¬((rangeStartRef rg).absoluteRow = false ∧ (rangeStartRef rg).row = k) := by
        simpa [rangeStartRef] using h.1
      have he : ¬((rangeEndRef rg).absoluteRow = false ∧ (rangeEndRef rg).row = k) := by
        simpa [rangeEndRef] using h.2
      simp [shiftNode, shiftCellRange_deleteRow, if_neg hs, if_neg he,
        specShiftRowDel, pure, Except.pure, Except.bind, bind]
    · intro h
      simp only [hasDangRow, Bool.or_eq_true, decide_eq_true_eq] at h
      by_cases hs : (rangeStartRef rg).absoluteRow = false ∧ (rangeStartRef rg).row = k
      · refine ⟨rangeStartRef rg, by simp [dangCellsRow, if_pos hs], ?_⟩
        simp [shiftNode, shiftCellRange_deleteRow, if_pos hs, dangMsg,
          pure, Except.pure, Except.bind, bind]
      · have he : (rangeEndRef rg).absoluteRow = false ∧ (rangeEndRef rg).row = k := by
          rcases h with h | h
          · exact absurd (by simpa [rangeStartRef] using h) hs
          · simpa [rangeEndRef] using h
        refine ⟨rangeEndRef rg, by simp [dangCellsRow, if_pos he, hs], ?_⟩
        simp [shiftNode, shiftCellRange_deleteRow, if_neg hs, if_pos he, dangMsg,
          pure, Except.pure, Except.bind, bind]
  | .functionCall name args => by
    have ih := shiftNodeList_deleteRow_cases k args
    constructor
    · intro h
      simp only [hasDangRow] at h
      simp [shiftNode, ih.1 h, specShiftRowDel, pure, Except.pure, Except.bind, bind]
    · intro h
      simp only [hasDangRow] at h
      obtain ⟨c, hc, herr⟩ := ih.2 h
      refine ⟨c, by simpa [dangCellsRow] using hc, ?_⟩
      simp [shiftNode, herr, pure, Except.pure, Except.bind, bind]
  | .binary op l r => by
    have ihl := shiftNode_deleteRow_cases k l
    have ihr := shiftNode_deleteRow_cases k r
    constructor
    · intro h
      simp only [hasDangRow, Bool.or_eq_false_iff] at h
      simp [shiftNode, ihl.1 h.1, ihr.1 h.2, specShiftRowDel, pure,
        Except.pure, Except.bind, bind]
    · intro h
      simp only [hasDangRow, Bool.or_eq_true] at h
      by_cases hl : hasDangRow k l = true
      · obtain ⟨c, hc, herr⟩ := ihl.2 hl
        refine ⟨c, by simp [dangCellsRow, hc], ?_⟩
        simp [shiftNode, herr, pure, Except.pure, Except.bind, bind]
      · have hr : hasDangRow k r = true := by
          rcases h with h | h
          · exact absurd h hl
          · exact h
        have hlf : hasDangRow k l = false := by simpa using hl
        obtain ⟨c, hc, herr⟩ := ihr.2 hr
        refine ⟨c, by simp [dangCellsRow, hc], ?_⟩
        simp [shiftNode, ihl.1 hlf, herr, pure, Except.pure, Except.bind, bind]
  | .unary op x => by
    have ih := shiftNode_deleteRow_cases k x
    constructor
    · intro h
      simp only [hasDangRow] at h
      simp [shiftNode, ih.1 h, specShiftRowDel, pure, Except.pure, Except.bind, bind]
    · intro h
      simp only [hasDangRow] at h
      obtain ⟨c, hc, herr⟩ := ih.2 h
      refine ⟨c, by simpa [dangCellsRow] using hc, ?_⟩
      simp [shiftNode, herr, pure, Except.pure, Except.bind, bind]
  | .numberLit v => by
    constructor
    · intro _
      simp [shiftNode, specShiftRowDel, pure, Except.pure]
    · intro h
      simp [hasDangRow] at h
  | .stringLit s => by
    constructor
    · intro _
      simp [shiftNode, specShiftRowDel, pure, Except.pure]
    · intro h
      simp [hasDangRow] at h

theorem shiftNodeList_deleteRow_cases (k : Int) :
    ∀ ts, (hasDangRowList k ts = false →
        shiftNodeList 0 0 none none (some k) none ts =
          .ok (specShiftRowDelList k ts)) ∧
      (hasDangRowList k ts = true →
        ∃ c ∈ dangCellsRowList k ts,
          shiftNodeList 0 0 none none (some k) none ts = .error (dangMsg c))
  | [] => by
    constructor
    · intro _
      simp [shiftNodeList, specShiftRowDelList, pure, Except.pure]
    · intro h
      simp [hasDangRowList] at h
  | a :: rest => by
    have iha := shiftNode_deleteRow_cases k a
    have ihr := shiftNodeList_deleteRow_cases k rest
    constructor
    · intro h
      simp only [hasDangRowList, Bool.or_eq_false_iff] at h
      simp [shiftNodeList, iha.1 h.1, ihr.1 h.2, specShiftRowDelList, pure,
        Except.pure, Except.bind, bind]
    · intro h
      simp only [hasDangRowList, Bool.or_eq_true] at h
      by_cases ha : hasDangRow k a = true
      · obtain ⟨c, hc, herr⟩ := iha.2 ha
        refine ⟨c, by simp [dangCellsRowList, hc], ?_⟩
        simp [shiftNodeList, herr, pure, Except.pure, Except.bind, bind]
      · have hr : hasDangRowList k rest = true := by
          rcases h with h | h
          · exact absurd h ha
          · exact h
        have haf : hasDangRow k a = false := by simpa using ha
        obtain ⟨c, hc, herr⟩ := ihr.2 hr
        refine ⟨c, by simp [dangCellsRowList, hc], ?_⟩
        simp [shiftNodeList, iha.1 haf, herr, pure, Except.pure, Except.bind, bind]
end

mutual
theorem shiftNode_deleteCol_cases (k : Int) :
    ∀ t, (hasDangCol k t = false →
        shiftNode 0 0 none none none (some k) t = .ok (specShiftColDel k t)) ∧
      (hasDangCol k t = true →
        ∃ c ∈ dangCellsCol k t,
          shiftNode 0 0 none none none (some k) t = .error (dangMsg c))
  | .cell ref => by
    constructor
    · intro h
      simp only [hasDangCol, decide_eq_false_iff_not] at h
      simp [shiftNode, shiftCellReference_deleteCol, if_neg h, specShiftColDel,
        pure, Except.pure, Except.bind, bind]
    · intro h
      simp only [hasDangCol, decide_eq_true_eq] at h
      refine ⟨ref, by simp [dangCellsCol, if_pos h], ?_⟩
      simp [shiftNode, shiftCellReference_deleteCol, if_pos h, dangMsg,
        pure, Except.pure, Except.bind, bind]
  | .rangeN rg => by
    constructor
    · intro h
      simp only [hasDangCol, Bool.or_eq_false_iff, decide_eq_false_iff_not] at h
      have hs : ¬((rangeStartRef rg).absoluteCol = false ∧ (rangeStartRef rg).col = k) := by
        simpa [rangeStartRef] using h.1
      have he : ¬((rangeEndRef rg).absoluteCol = false ∧ (rangeEndRef rg).col = k) := by
        simpa [rangeEndRef] using h.2
      simp [shiftNode, shiftCellRange_deleteCol, if_neg hs, if_neg he,
        specShiftColDel, pure, Except.pure, Except.bind, bind]
    · intro h
      simp only [hasDangCol, Bool.or_eq_true, decide_eq_true_eq] at h
      by_cases hs : (rangeStartRef rg).absoluteCol = false ∧ (rangeStartRef rg).col = k
      · refine ⟨rangeStartRef rg, by simp [dangCellsCol, if_pos hs], ?_⟩
        simp [shiftNode, shiftCellRange_deleteCol, if_pos hs, dangMsg,
          pure, Except.pure, Except.bind, bind]
      · have he : (rangeEndRef rg).absoluteCol = false ∧ (rangeEndRef rg).col = k := by
          rcases h with h | h
          · exact absurd (by simpa [rangeStartRef] using h) hs
          · simpa [rangeEndRef] using h
        refine ⟨rangeEndRef rg, by simp [dangCellsCol, if_pos he, hs], ?_⟩
        simp [shiftNode, shiftCellRange_deleteCol, if_neg hs, if_pos he, dangMsg,
          pure, Except.pure, Except.bind, bind]
  | .functionCall name args => by
    have ih := shiftNodeList_deleteCol_cases k args
    constructor
    · intro h
      simp only [hasDangCol] at h
      simp [shiftNode, ih.1 h, specShiftColDel, pure, Except.pure, Except.bind, bind]
    · intro h
      simp only [hasDangCol] at h
      obtain ⟨c, hc, herr⟩ := ih.2 h
      refine ⟨c, by simpa [dangCellsCol] using hc, ?_⟩
      simp [shiftNode, herr, pure, Except.pure, Except.bind, bind]
  | .binary op l r => by
    have ihl := shiftNode_deleteCol_cases k l
    have ihr := shiftNode_deleteCol_cases k r
    constructor
    · intro h
      simp only [hasDangCol, Bool.or_eq_false_iff] at h
      simp [shiftNode, ihl.1 h.1, ihr.1 h.2, specShiftColDel, pure,
        Except.pure, Except.bind, bind]
    · intro h
      simp only [hasDangCol, Bool.or_eq_true] at h
      by_cases hl : hasDangCol k l = true
      · obtain ⟨c, hc, herr⟩ := ihl.2 hl
        refine ⟨c, by simp [dangCellsCol, hc], ?_⟩
        simp [shiftNode, herr, pure, Except.pure, Except.bind, bind]
      · have hr : hasDangCol k r = true := by
          rcases h with h | h
          · exact absurd h hl
          · exact h
        have hlf : hasDangCol k l = false := by simpa using hl
        obtain ⟨c, hc, herr⟩ := ihr.2 hr
        refine ⟨c, by simp [dangCellsCol, hc], ?_⟩
        simp [shiftNode, ihl.1 hlf, herr, pure, Except.pure, Except.bind, bind]
  | .unary op x => by
    have ih := shiftNode_deleteCol_cases k x
    constructor
    · intro h
      simp only [hasDangCol] at h
      simp [shiftNode, ih.1 h, specShiftColDel, pure, Except.pure, Except.bind, bind]
    · intro h
      simp only [hasDangCol] at h
      obtain ⟨c, hc, herr⟩ := ih.2 h
      refine ⟨c, by simpa [dangCellsCol] using hc, ?_⟩
      simp [shiftNode, herr, pure, Except.pure, Except.bind, bind]
  | .numberLit v => by
    constructor
    · intro _
      simp [shiftNode, specShiftColDel, pure, Except.pure]
    · intro h
      simp [hasDangCol] at h
  | .stringLit s => by
    constructor
    · intro _
      simp [shiftNode, specShiftColDel, pure, Except.pure]
    · intro h
      simp [hasDangCol] at h

theorem shiftNodeList_deleteCol_cases (k : Int) :
    ∀ ts, (hasDangColList k ts = false →
        shiftNodeList 0 0 none none none (some k) ts =
          .ok (specShiftColDelList k ts)) ∧
      (hasDangColList k ts = true →
        ∃ c ∈ dangCellsColList k ts,
          shiftNodeList 0 0 none none none (some k) ts = .error (dangMsg c))
  | [] => by
    constructor
    · intro _
      simp [shiftNodeList, specShiftColDelList, pure, Except.pure]
    · intro h
      simp [hasDangColList] at h
  | a :: rest => by
    have iha := shiftNode_deleteCol_cases k a
    have ihr := shiftNodeList_deleteCol_cases k rest
    constructor
    · intro h
      simp only [hasDangColList, Bool.or_eq_false_iff] at h
      simp [shiftNodeList, iha.1 h.1, ihr.1 h.2, specShiftColDelList, pure,
        Except.pure, Except.bind, bind]
    · intro h
      simp only [hasDangColList, Bool.or_eq_true] at h
      by_cases ha : hasDangCol k a = true
      · obtain ⟨c, hc, herr⟩ := iha.2 ha
        refine ⟨c, by simp [dangCellsColList, hc], ?_⟩
        simp [shiftNodeList, herr, pure, Except.pure, Except.bind, bind]
      · have hr : hasDangColList k rest = true := by
          rcases h with h | h
          · exact absurd h ha
          · exact h
        have haf : hasDangCol k a = false := by simpa using ha
        obtain ⟨c, hc, herr⟩ := ihr.2 hr
        refine ⟨c, by simp [dangCellsColList, hc], ?_⟩
        simp [shiftNodeList, iha.1 haf, herr, pure, Except.pure, Except.bind, bind]
end

/-! ## Registry characterisations of the structural-edit handlers -/

/-- Coordinate relocation of row insertion: own row ≥ k moves to
row + 1, the column is untouched. -/
def rowInsKey (k : Int) (key : Int × Int) : Int × Int :=
  (if key.1 ≥ k then key.1 + 1 else key.1, key.2)

/-- Coordinate relocation of column insertion. -/
def colInsKey (k : Int) (key : Int × Int) : Int × Int :=
  (key.1, if key.2 ≥ k then key.2 + 1 else key.2)

/-- Coordinate relocation of row deletion (applied to survivors). -/
def rowDelKey (k : Int) (key : Int × Int) : Int × Int :=
  (if key.1 > k then key.1 - 1 else key.1, key.2)

/-- Coordinate relocation of column deletion (applied to survivors). -/
def colDelKey (k : Int) (key : Int × Int) : Int × Int :=
  (key.1, if key.2 > k then key.2 - 1 else key.2)

/-- The registry record a handler builds for a rewritten tree. -/
def shiftedInfo (root' : FormulaNode) (origf : String) : FormulaInfo :=
  { ast := { root := root', originalFormula := origf }
    dependencies := extractDependencies root'
    dependents := [] }

/-- Row insertion: the rebuilt registry entry of a formula. -/
def rowInsEntry (k : Int) (e : (Int × Int) × FormulaInfo) :
    (Int × Int) × FormulaInfo :=
  (rowInsKey k e.1,
   shiftedInfo (specShiftRowIns k e.2.ast.root) e.2.ast.originalFormula)

/-- Row insertion: the callback invocation of a formula. -/
def rowInsCall (k : Int) (e : (Int × Int) × FormulaInfo) : CallbackCall :=
  ((rowInsKey k e.1).1, (rowInsKey k e.1).2,
   "=" ++ formatFormula (specShiftRowIns k e.2.ast.root))

/-- Column insertion: the rebuilt registry entry of a formula. -/
def colInsEntry (k : Int) (e : (Int × Int) × FormulaInfo) :
    (Int × Int) × FormulaInfo :=
  (colInsKey k e.1,
   shiftedInfo (specShiftColIns k e.2.ast.root) e.2.ast.originalFormula)

/-- Column insertion: the callback invocation of a formula. -/
def colInsCall (k : Int) (e : (Int × Int) × FormulaInfo) : CallbackCall :=
  ((colInsKey k e.1).1, (colInsKey k e.1).2,
   "=" ++ formatFormula (specShiftColIns k e.2.ast.root))

/-- Row deletion: the rebuilt registry entry of a surviving formula. -/
def rowDelEntry (k : Int) (e : (Int × Int) × FormulaInfo) :
    (Int × Int) × FormulaInfo :=
  (rowDelKey k e.1,
   shiftedInfo (specShiftRowDel k e.2.ast.root) e.2.ast.originalFormula)

/-- Row deletion: the callback invocation of a surviving formula. -/
def rowDelCall (k : Int) (e : (Int × Int) × FormulaInfo) : CallbackCall :=
  ((rowDelKey k e.1).1, (rowDelKey k e.1).2,
   "=" ++ formatFormula (specShiftRowDel k e.2.ast.root))

/-- Column deletion: the rebuilt registry entry of a survivor. -/
def colDelEntry (k : Int) (e : (Int × Int) × FormulaInfo) :
    (Int × Int) × FormulaInfo :=
  (colDelKey k e.1,
   shiftedInfo (specShiftColDel k e.2.ast.root) e.2.ast.originalFormula)

/-- Column deletion: the callback invocation of a survivor. -/
def colDelCall (k : Int) (e : (Int × Int) × FormulaInfo) : CallbackCall :=
  ((colDelKey k e.1).1, (colDelKey k e.1).2,
   "=" ++ formatFormula (specShiftColDel k e.2.ast.root))

theorem alGet_eq_none_iff {α β : Type} [DecidableEq α]
    (l : List (α × β)) (k : α) :
    alGet l k = none ↔ k ∉ l.map Prod.fst := by
  induction l with
  | nil => simp [alGet]
  | cons e rest ih =>
    by_cases h : e.1 = k <;> simp [alGet, List.find?, h] <;> simp [alGet] at ih <;>
      simp [ih, h, Ne.symm h]

theorem alSet_of_not_mem {α β : Type} [DecidableEq α]
    {l : List (α × β)} {k : α} (h : k ∉ l.map Prod.fst) (v : β) :
    alSet l k v = l ++ [(k, v)] := by
  have hfind : (l.find? (fun e => decide (e.1 = k))) = none := by
    rw [List.find?_eq_none]
    intro x hx
    simp only [decide_eq_true_eq]
    intro heq
    exact h (heq ▸ List.mem_map_of_mem Prod.fst hx)
  simp [alSet, hfind]

theorem shiftFormulaAST_insertRow (ast : FormulaAST) (k : Int) :
    shiftFormulaAST ast 0 0 (some k) none none none =
      .ok { root := specShiftRowIns k ast.root
            originalFormula := ast.originalFormula } := by
  simp [shiftFormulaAST, shiftNode_insertRow_eq, pure, Except.pure, Except.bind, bind]

theorem shiftFormulaAST_insertCol (ast : FormulaAST) (k : Int) :
    shiftFormulaAST ast 0 0 none (some k) none none =
      .ok { root := specShiftColIns k ast.root
            originalFormula := ast.originalFormula } := by
  simp [shiftFormulaAST, shiftNode_insertCol_eq, pure, Except.pure, Except.bind, bind]

theorem shiftFormulaAST_deleteRow_ok (ast : FormulaAST) (k : Int)
    (h : hasDangRow k ast.root = false) :
    shiftFormulaAST ast 0 0 none none (some k) none =
      .ok { root := specShiftRowDel k ast.root
            originalFormula := ast.originalFormula } := by
  simp [shiftFormulaAST, (shiftNode_deleteRow_cases k ast.root).1 h, pure,
    Except.pure, Except.bind, bind]

theorem shiftFormulaAST_deleteRow_err (ast : FormulaAST) (k : Int)
    (h : hasDangRow k ast.root = true) :
    ∃ c ∈ dangCellsRow k ast.root,
      shiftFormulaAST ast 0 0 none none (some k) none = .error (dangMsg c) := by
  obtain ⟨c, hc, herr⟩ := (shiftNode_deleteRow_cases k ast.root).2 h
  exact ⟨c, hc, by simp [shiftFormulaAST, herr, pure, Except.pure, Except.bind, bind]⟩

theorem shiftFormulaAST_deleteCol_ok (ast : FormulaAST) (k : Int)
    (h : hasDangCol k ast.root = false) :
    shiftFormulaAST ast 0 0 none none none (some k) =
      .ok { root := specShiftColDel k ast.root
            originalFormula := ast.originalFormula } := by
  simp [shiftFormulaAST, (shiftNode_deleteCol_cases k ast.root).1 h, pure,
    Except.pure, Except.bind, bind]

theorem shiftFormulaAST_deleteCol_err (ast : FormulaAST) (k : Int)
    (h : hasDangCol k ast.root = true) :
    ∃ c ∈ dangCellsCol k ast.root,
      shiftFormulaAST ast 0 0 none none none (some k) = .error (dangMsg c) := by
  obtain ⟨c, hc, herr⟩ := (shiftNode_deleteCol_cases k ast.root).2 h
  exact ⟨c, hc, by simp [shiftFormulaAST, herr, pure, Except.pure, Except.bind, bind]⟩

theorem rowInsStep_eq (k : Int) (acc : Registry × List CallbackCall)
    (e : (Int × Int) × FormulaInfo)
    (h : rowInsKey k e.1 ∉ acc.1.map Prod.fst) :
    rowInsStep k acc e =
      .ok (acc.1 ++ [rowInsEntry k e], acc.2 ++ [rowInsCall k e]) := by
  have hset := alSet_of_not_mem h
    ({ ast := { root := specShiftRowIns k e.2.ast.root
                originalFormula := e.2.ast.originalFormula }
       dependencies := extractDependencies (specShiftRowIns k e.2.ast.root)
       dependents := [] } : FormulaInfo)
  simp [rowInsStep, shiftFormulaAST_insertRow, pure, Except.pure, Except.bind, bind,
    rowInsEntry, rowInsCall, rowInsKey, shiftedInfo] at hset ⊢
  exact hset

theorem rowIns_fold (k : Int) :
    ∀ (st : Registry) (acc : Registry × List CallbackCall),
      (∀ e ∈ st, rowInsKey k e.1 ∉ acc.1.map Prod.fst) →
      (st.map (fun e => rowInsKey k e.1)).Nodup →
      st.foldlM (rowInsStep k) acc =
        .ok (acc.1 ++ st.map (rowInsEntry k), acc.2 ++ st.map (rowInsCall k))
  | [], acc, _, _ => by simp [List.foldlM, pure, Except.pure]
  | e :: rest, acc, hfresh, hnd => by
    have h0 : rowInsKey k e.1 ∉ acc.1.map Prod.fst := hfresh e (by simp)
    have hstep := rowInsStep_eq k acc e h0
    have hnd' := hnd.of_cons
    have hhead : rowInsKey k e.1 ∉ rest.map (fun e' => rowInsKey k e'.1) := by
      have := List.nodup_cons.mp hnd
      simpa using this.1
    have hfresh' : ∀ e' ∈ rest,
        rowInsKey k e'.1 ∉ (acc.1 ++ [rowInsEntry k e]).map Prod.fst := by
      intro e' he'
      simp only [List.map_append, List.mem_append, List.map_cons, List.map_nil,
        List.mem_singleton, rowInsEntry]
      rintro (hin | heq)
      · exact hfresh e' (List.mem_cons_of_mem _ he') hin
      · exact hhead (by simpa [heq.symm] using List.mem_map_of_mem (fun x => rowInsKey k x.1) he')
    have ih := rowIns_fold k rest (acc.1 ++ [rowInsEntry k e], acc.2 ++ [rowInsCall k e])
      hfresh' hnd'
    simp only [List.foldlM, hstep, Except.bind, bind] at *
    simp [ih, pure, Except.pure]

theorem rowInsKey_injective (k : Int) : Function.Injective (rowInsKey k) := by
  rintro ⟨a1, a2⟩ ⟨b1, b2⟩ h
  simp only [rowInsKey, Prod.mk.injEq] at h
  obtain ⟨h1, h2⟩ := h
  refine Prod.ext ?_ (by simpa using h2)
  simp only
  split_ifs at h1 <;> omega

/-- C1 machinery: `handleRowInsertion` in closed form. -/
theorem handleRowInsertion_eq (k : Int) (st : Registry)
    (hnd : (st.map Prod.fst).Nodup) :
    handleRowInsertion k st =
      .ok (rebuildDependencies (st.map (rowInsEntry k)), st.map (rowInsCall k)) := by
  have hnd' : (st.map (fun e => rowInsKey k e.1)).Nodup := by
    have heq : st.map (fun e => rowInsKey k e.1) = (st.map Prod.fst).map (rowInsKey k) := by
      simp [List.map_map]
    rw [heq]
    exact hnd.map (rowInsKey_injective k)
  have hfold := rowIns_fold k st ([], []) (by simp) hnd'
  simp [handleRowInsertion, hfold, pure, Except.pure, Except.bind, bind]

theorem colInsStep_eq (k : Int) (acc : Registry × List CallbackCall)
    (e : (Int × Int) × FormulaInfo)
    (h : colInsKey k e.1 ∉ acc.1.map Prod.fst) :
    colInsStep k acc e =
      .ok (acc.1 ++ [colInsEntry k e], acc.2 ++ [colInsCall k e]) := by
  have hset := alSet_of_not_mem h
    ({ ast := { root := specShiftColIns k e.2.ast.root
                originalFormula := e.2.ast.originalFormula }
       dependencies := extractDependencies (specShiftColIns k e.2.ast.root)
       dependents := [] } : FormulaInfo)
  simp [colInsStep, shiftFormulaAST_insertCol, pure, Except.pure, Except.bind, bind,
    colInsEntry, colInsCall, colInsKey, shiftedInfo] at hset ⊢
  exact hset

theorem colIns_fold (k : Int) :
    ∀ (st : Registry) (acc : Registry × List CallbackCall),
      (∀ e ∈ st, colInsKey k e.1 ∉ acc.1.map Prod.fst) →
      (st.map (fun e => colInsKey k e.1)).Nodup →
      st.foldlM (colInsStep k) acc =
        .ok (acc.1 ++ st.map (colInsEntry k), acc.2 ++ st.map (colInsCall k))
  | [], acc, _, _ => by simp [List.foldlM, pure, Except.pure]
  | e :: rest, acc, hfresh, hnd => by
    have h0 : colInsKey k e.1 ∉ acc.1.map Prod.fst := hfresh e (by simp)
    have hstep := colInsStep_eq k acc e h0
    have hnd' := hnd.of_cons
    have hhead : colInsKey k e.1 ∉ rest.map (fun e' => colInsKey k e'.1) := by
      have := List.nodup_cons.mp hnd
      simpa using this.1
    have hfresh' : ∀ e' ∈ rest,
        colInsKey k e'.1 ∉ (acc.1 ++ [colInsEntry k e]).map Prod.fst := by
      intro e' he'
      simp only [List.map_append, List.mem_append, List.map_cons, List.map_nil,
        List.mem_singleton, colInsEntry]
      rintro (hin | heq)
      · exact hfresh e' (List.mem_cons_of_mem _ he') hin
      · exact hhead (by simpa [heq.symm] using List.mem_map_of_mem (fun x => colInsKey k x.1) he')
    have ih := colIns_fold k rest (acc.1 ++ [colInsEntry k e], acc.2 ++ [colInsCall k e])
      hfresh' hnd'
    simp only [List.foldlM, hstep, Except.bind, bind] at *
    simp [ih, pure, Except.pure]

theorem colInsKey_injective (k : Int) : Function.Injective (colInsKey k) := by
  rintro ⟨a1, a2⟩ ⟨b1, b2⟩ h
  simp only [colInsKey, Prod.mk.injEq] at h
  obtain ⟨h1, h2⟩ := h
  refine Prod.ext (by simpa using h1) ?_
  simp only
  split_ifs at h2 <;> omega

/-- `handleColumnInsertion` in closed form. -/
theorem handleColumnInsertion_eq (k : Int) (st : Registry)
    (hnd : (st.map Prod.fst).Nodup) :
    handleColumnInsertion k st =
      .ok (rebuildDependencies (st.map (colInsEntry k)), st.map (colInsCall k)) := by
  have hnd' : (st.map (fun e => colInsKey k e.1)).Nodup := by
    have heq : st.map (fun e => colInsKey k e.1) = (st.map Prod.fst).map (colInsKey k) := by
      simp [List.map_map]
    rw [heq]
    exact hnd.map (colInsKey_injective k)
  have hfold := colIns_fold k st ([], []) (by simp) hnd'
  simp [handleColumnInsertion, hfold, pure, Except.pure, Except.bind, bind]

theorem rowDelStep_skip (k : Int) (acc : Registry × List CallbackCall)
    (e : (Int × Int) × FormulaInfo) (h : e.1.1 = k) :
    rowDelStep k acc e = .ok acc := by
  simp [rowDelStep, h, pure, Except.pure]

theorem rowDelStep_ok (k : Int) (acc : Registry × List CallbackCall)
    (e : (Int × Int) × FormulaInfo) (hne : e.1.1 ≠ k)
    (hdang : hasDangRow k e.2.ast.root = false)
    (h : rowDelKey k e.1 ∉ acc.1.map Prod.fst) :
    rowDelStep k acc e =
      .ok (acc.1 ++ [rowDelEntry k e], acc.2 ++ [rowDelCall k e]) := by
  have hset := alSet_of_not_mem h
    ({ ast := { root := specShiftRowDel k e.2.ast.root
                originalFormula := e.2.ast.originalFormula }
       dependencies := extractDependencies (specShiftRowDel k e.2.ast.root)
       dependents := [] } : FormulaInfo)
  simp [rowDelStep, hne, shiftFormulaAST_deleteRow_ok _ _ hdang, pure, Except.pure,
    Except.bind, bind, rowDelEntry, rowDelCall, rowDelKey, shiftedInfo] at hset ⊢
  exact hset

theorem rowDelStep_isOk (k : Int) (acc : Registry × List CallbackCall)
    (e : (Int × Int) × FormulaInfo) (hne : e.1.1 ≠ k)
    (hdang : hasDangRow k e.2.ast.root = false) :
    ∃ acc', rowDelStep k acc e = .ok acc' := by
  refine ⟨?_, ?_⟩
  · exact (alSet acc.1 (rowDelKey k e.1)
      (shiftedInfo (specShiftRowDel k e.2.ast.root) e.2.ast.originalFormula),
      acc.2 ++ [rowDelCall k e])
  · simp [rowDelStep, hne, shiftFormulaAST_deleteRow_ok _ _ hdang, pure, Except.pure,
      Except.bind, bind, rowDelKey, rowDelCall, shiftedInfo]

theorem rowDelStep_err (k : Int) (acc : Registry × List CallbackCall)
    (e : (Int × Int) × FormulaInfo) (hne : e.1.1 ≠ k)
    (hdang : hasDangRow k e.2.ast.root = true) :
    ∃ c ∈ dangCellsRow k e.2.ast.root, rowDelStep k acc e = .error (dangMsg c) := by
  obtain ⟨c, hc, herr⟩ := shiftFormulaAST_deleteRow_err e.2.ast k hdang
  exact ⟨c, hc, by simp [rowDelStep, hne, herr, pure, Except.pure, Except.bind, bind]⟩

theorem rowDel_fold_ok (k : Int) :
    ∀ (st : Registry) (acc : Registry × List CallbackCall),
      (∀ e ∈ st, e.1.1 ≠ k → hasDangRow k e.2.ast.root = false) →
      (∀ e ∈ st, e.1.1 ≠ k → rowDelKey k e.1 ∉ acc.1.map Prod.fst) →
      ((st.filter (fun e => decide (e.1.1 ≠ k))).map (fun e => rowDelKey k e.1)).Nodup →
      st.foldlM (rowDelStep k) acc =
        .ok (acc.1 ++ (st.filter (fun e => decide (e.1.1 ≠ k))).map (rowDelEntry k),
             acc.2 ++ (st.filter (fun e => decide (e.1.1 ≠ k))).map (rowDelCall k))
  | [], acc, _, _, _ => by simp [List.foldlM, pure, Except.pure]
  | e :: rest, acc, hclean, hfresh, hnd => by
    by_cases hk : e.1.1 = k
    · have hstep := rowDelStep_skip k acc e hk
      have ih := rowDel_fold_ok k rest acc
        (fun e' he' => hclean e' (List.mem_cons_of_mem _ he'))
        (fun e' he' => hfresh e' (List.mem_cons_of_mem _ he'))
        (by simpa [List.filter, hk] using hnd)
      simp only [List.foldlM, hstep, Except.bind, bind] at *
      simpa [List.filter, hk] using ih
    · have hd := hclean e (by simp) hk
      have h0 : rowDelKey k e.1 ∉ acc.1.map Prod.fst := hfresh e (by simp) hk
      have hstep := rowDelStep_ok k acc e hk hd h0
      have hfilter :
          (e :: rest).filter (fun e' => decide (e'.1.1 ≠ k)) =
            e :: rest.filter (fun e' => decide (e'.1.1 ≠ k)) := by
        simp [List.filter, hk]
      rw [hfilter] at hnd
      have hnd' := hnd.of_cons
      have hhead := (List.nodup_cons.mp hnd).1
      have hfresh' : ∀ e' ∈ rest, e'.1.1 ≠ k →
          rowDelKey k e'.1 ∉ (acc.1 ++ [rowDelEntry k e]).map Prod.fst := by
        intro e' he' hne'
        simp only [List.map_append, List.mem_append, List.map_cons, List.map_nil,
          List.mem_singleton, rowDelEntry]
        rintro (hin | heq)
        · exact hfresh e' (List.mem_cons_of_mem _ he') hne' hin
        · refine hhead ?_
          have hmemf : e' ∈ rest.filter (fun x => decide (x.1.1 ≠ k)) :=
            List.mem_filter.mpr ⟨he', by simpa using hne'⟩
          have hmem := List.mem_map_of_mem (fun x => rowDelKey k x.1) hmemf
          simpa [heq] using hmem
      have ih := rowDel_fold_ok k rest (acc.1 ++ [rowDelEntry k e], acc.2 ++ [rowDelCall k e])
        (fun e' he' => hclean e' (List.mem_cons_of_mem _ he')) hfresh' hnd'
      simp only [List.foldlM, hstep, Except.bind, bind] at *
      rw [hfilter]
      simpa using ih

theorem rowDel_fold_err (k : Int) :
    ∀ (st : Registry) (acc : Registry × List CallbackCall),
      (∃ e ∈ st, e.1.1 ≠ k ∧ hasDangRow k e.2.ast.root = true) →
      ∃ e ∈ st, e.1.1 ≠ k ∧ ∃ c ∈ dangCellsRow k e.2.ast.root,
        st.foldlM (rowDelStep k) acc = .error (dangMsg c)
  | [], _, h => by simp at h
  | e :: rest, acc, h => by
    by_cases hk : e.1.1 = k
    · have hstep := rowDelStep_skip k acc e hk
      have hex : ∃ e' ∈ rest, e'.1.1 ≠ k ∧ hasDangRow k e'.2.ast.root = true := by
        obtain ⟨e', he', hne', hd⟩ := h
        rcases List.mem_cons.mp he' with heq | hmem
        · exact absurd (heq ▸ hk) hne'
        · exact ⟨e', hmem, hne', hd⟩
      obtain ⟨e', he', hne', c, hc, herr⟩ := rowDel_fold_err k rest acc hex
      refine ⟨e', List.mem_cons_of_mem _ he', hne', c, hc, ?_⟩
      simp only [List.foldlM, hstep, Except.bind, bind]
      exact herr
    · by_cases hd : hasDangRow k e.2.ast.root = true
      · obtain ⟨c, hc, herr⟩ := rowDelStep_err k acc e hk hd
        refine ⟨e, by simp, hk, c, hc, ?_⟩
        simp only [List.foldlM, herr, Except.bind, bind]
      · have hdf : hasDangRow k e.2.ast.root = false := by simpa using hd
        obtain ⟨acc', hstep⟩ := rowDelStep_isOk k acc e hk hdf
        have hex : ∃ e' ∈ rest, e'.1.1 ≠ k ∧ hasDangRow k e'.2.ast.root = true := by
          obtain ⟨e', he', hne', hde'⟩ := h
          rcases List.mem_cons.mp he' with heq | hmem
          · exact absurd (heq ▸ hde') (by simp [hdf, heq])
          · exact ⟨e', hmem, hne', hde'⟩
        obtain ⟨e', he', hne', c, hc, herr⟩ := rowDel_fold_err k rest acc' hex
        refine ⟨e', List.mem_cons_of_mem _ he', hne', c, hc, ?_⟩
        simp only [List.foldlM, hstep, Except.bind, bind]
        exact herr

theorem rowDelKey_inj_on (k : Int) (a b : Int × Int)
    (ha : a.1 ≠ k) (hb : b.1 ≠ k) (h : rowDelKey k a = rowDelKey k b) : a = b := by
  rcases a with ⟨a1, a2⟩
  rcases b with ⟨b1, b2⟩
  simp only [rowDelKey, Prod.mk.injEq] at h
  obtain ⟨h1, h2⟩ := h
  simp only at ha hb
  refine Prod.ext ?_ (by simpa using h2)
  simp only
  split_ifs at h1 <;> omega

theorem survivorsRow_keys_nodup (k : Int) (st : Registry)
    (hnd : (st.map Prod.fst).Nodup) :
    ((st.filter (fun e => decide (e.1.1 ≠ k))).map (fun e => rowDelKey k e.1)).Nodup := by
  have hsub : (st.filter (fun e => decide (e.1.1 ≠ k))).Sublist st :=
    List.filter_sublist st
  have hkeys : ((st.filter (fun e => decide (e.1.1 ≠ k))).map Prod.fst).Nodup :=
    (hsub.map Prod.fst).nodup hnd
  have heq : (st.filter (fun e => decide (e.1.1 ≠ k))).map (fun e => rowDelKey k e.1) =
      ((st.filter (fun e => decide (e.1.1 ≠ k))).map Prod.fst).map (rowDelKey k) := by
    simp [List.map_map]
  rw [heq]
  refine hkeys.map_on ?_
  intro x hx y hy hxy
  have hxk : x.1 ≠ k := by
    obtain ⟨e, he, hex⟩ := List.mem_map.mp hx
    have := (List.mem_filter.mp he).2
    simp only [decide_eq_true_eq] at this
    simpa [← hex] using this
  have hyk : y.1 ≠ k := by
    obtain ⟨e, he, hey⟩ := List.mem_map.mp hy
    have := (List.mem_filter.mp he).2
    simp only [decide_eq_true_eq] at this
    simpa [← hey] using this
  exact rowDelKey_inj_on k x y hxk hyk hxy

/-- `handleRowDeletion` in closed form when no surviving formula holds
a dangling reference: formulas on the deleted row are dropped, the
rest are re-keyed and rewritten by the specification rule. -/
theorem handleRowDeletion_ok (k : Int) (st : Registry)
    (hnd : (st.map Prod.fst).Nodup)
    (hclean : ∀ e ∈ st, e.1.1 ≠ k → hasDangRow k e.2.ast.root = false) :
    handleRowDeletion k st =
      .ok (rebuildDependencies
            ((st.filter (fun e => decide (e.1.1 ≠ k))).map (rowDelEntry k)),
           (st.filter (fun e => decide (e.1.1 ≠ k))).map (rowDelCall k)) := by
  have hfold := rowDel_fold_ok k st ([], []) hclean (by simp)
    (survivorsRow_keys_nodup k st hnd)
  simp [handleRowDeletion, hfold, pure, Except.pure, Except.bind, bind]

/-- `handleRowDeletion` raises the dangling-reference failure, naming
a stranded reference, whenever a surviving formula holds one. -/
theorem handleRowDeletion_err (k : Int) (st : Registry)
    (hex : ∃ e ∈ st, e.1.1 ≠ k ∧ hasDangRow k e.2.ast.root = true) :
    ∃ e ∈ st, e.1.1 ≠ k ∧ ∃ c ∈ dangCellsRow k e.2.ast.root,
      handleRowDeletion k st = .error (dangMsg c) := by
  obtain ⟨e, he, hne, c, hc, herr⟩ := rowDel_fold_err k st ([], []) hex
  refine ⟨e, he, hne, c, hc, ?_⟩
  simp [handleRowDeletion, herr, pure, Except.pure, Except.bind, bind]

theorem colDelStep_skip (k : Int) (acc : Registry × List CallbackCall)
    (e : (Int × Int) × FormulaInfo) (h : e.1.2 = k) :
    colDelStep k acc e = .ok acc := by
  simp [colDelStep, h, pure, Except.pure]

theorem colDelStep_ok (k : Int) (acc : Registry × List CallbackCall)
    (e : (Int × Int) × FormulaInfo) (hne : e.1.2 ≠ k)
    (hdang : hasDangCol k e.2.ast.root = false)
    (h : colDelKey k e.1 ∉ acc.1.map Prod.fst) :
    colDelStep k acc e =
      .ok (acc.1 ++ [colDelEntry k e], acc.2 ++ [colDelCall k e]) := by
  have hset := alSet_of_not_mem h
    ({ ast := { root := specShiftColDel k e.2.ast.root
                originalFormula := e.2.ast.originalFormula }
       dependencies := extractDependencies (specShiftColDel k e.2.ast.root)
       dependents := [] } : FormulaInfo)
  simp [colDelStep, hne, shiftFormulaAST_deleteCol_ok _ _ hdang, pure, Except.pure,
    Except.bind, bind, colDelEntry, colDelCall, colDelKey, shiftedInfo] at hset ⊢
  exact hset

theorem colDelStep_isOk (k : Int) (acc : Registry × List CallbackCall)
    (e : (Int × Int) × FormulaInfo) (hne : e.1.2 ≠ k)
    (hdang : hasDangCol k e.2.ast.root = false) :
    ∃ acc', colDelStep k acc e = .ok acc' := by
  refine ⟨?_, ?_⟩
  · exact (alSet acc.1 (colDelKey k e.1)
      (shiftedInfo (specShiftColDel k e.2.ast.root) e.2.ast.originalFormula),
      acc.2 ++ [colDelCall k e])
  · simp [colDelStep, hne, shiftFormulaAST_deleteCol_ok _ _ hdang, pure, Except.pure,
      Except.bind, bind, colDelKey, colDelCall, shiftedInfo]

theorem colDelStep_err (k : Int) (acc : Registry × List CallbackCall)
    (e : (Int × Int) × FormulaInfo) (hne : e.1.2 ≠ k)
    (hdang : hasDangCol k e.2.ast.root = true) :
    ∃ c ∈ dangCellsCol k e.2.ast.root, colDelStep k acc e = .error (dangMsg c) := by
  obtain ⟨c, hc, herr⟩ := shiftFormulaAST_deleteCol_err e.2.ast k hdang
  exact ⟨c, hc, by simp [colDelStep, hne, herr, pure, Except.pure, Except.bind, bind]⟩

theorem colDel_fold_ok (k : Int) :
    ∀ (st : Registry) (acc : Registry × List CallbackCall),
      (∀ e ∈ st, e.1.2 ≠ k → hasDangCol k e.2.ast.root = false) →
      (∀ e ∈ st, e.1.2 ≠ k → colDelKey k e.1 ∉ acc.1.map Prod.fst) →
      ((st.filter (fun e => decide (e.1.2 ≠ k))).map (fun e => colDelKey k e.1)).Nodup →
      st.foldlM (colDelStep k) acc =
        .ok (acc.1 ++ (st.filter (fun e => decide (e.1.2 ≠ k))).map (colDelEntry k),
             acc.2 ++ (st.filter (fun e => decide (e.1.2 ≠ k))).map (colDelCall k))
  | [], acc, _, _, _ => by simp [List.foldlM, pure, Except.pure]
  | e :: rest, acc, hclean, hfresh, hnd => by
    by_cases hk : e.1.2 = k
    · have hstep := colDelStep_skip k acc e hk
      have ih := colDel_fold_ok k rest acc
        (fun e' he' => hclean e' (List.mem_cons_of_mem _ he'))
        (fun e' he' => hfresh e' (List.mem_cons_of_mem _ he'))
        (by simpa [List.filter, hk] using hnd)
      simp only [List.foldlM, hstep, Except.bind, bind] at *
      simpa [List.filter, hk] using ih
    · have hd := hclean e (by simp) hk
      have h0 : colDelKey k e.1 ∉ acc.1.map Prod.fst := hfresh e (by simp) hk
      have hstep := colDelStep_ok k acc e hk hd h0
      have hfilter :
          (e :: rest).filter (fun e' => decide (e'.1.2 ≠ k)) =
            e :: rest.filter (fun e' => decide (e'.1.2 ≠ k)) := by
        simp [List.filter, hk]
      rw [hfilter] at hnd
      have hnd' := hnd.of_cons
      have hhead := (List.nodup_cons.mp hnd).1
      have hfresh' : ∀ e' ∈ rest, e'.1.2 ≠ k →
          colDelKey k e'.1 ∉ (acc.1 ++ [colDelEntry k e]).map Prod.fst := by
        intro e' he' hne'
        simp only [List.map_append, List.mem_append, List.map_cons, List.map_nil,
          List.mem_singleton, colDelEntry]
        rintro (hin | heq)
        · exact hfresh e' (List.mem_cons_of_mem _ he') hne' hin
        · refine hhead ?_
          have hmemf : e' ∈ rest.filter (fun x => decide (x.1.2 ≠ k)) :=
            List.mem_filter.mpr ⟨he', by simpa using hne'⟩
          have hmem := List.mem_map_of_mem (fun x => colDelKey k x.1) hmemf
          simpa [heq] using hmem
      have ih := colDel_fold_ok k rest (acc.1 ++ [colDelEntry k e], acc.2 ++ [colDelCall k e])
        (fun e' he' => hclean e' (List.mem_cons_of_mem _ he')) hfresh' hnd'
      simp only [List.foldlM, hstep, Except.bind, bind] at *
      rw [hfilter]
      simpa using ih

theorem colDel_fold_err (k : Int) :
    ∀ (st : Registry) (acc : Registry × List CallbackCall),
      (∃ e ∈ st, e.1.2 ≠ k ∧ hasDangCol k e.2.ast.root = true) →
      ∃ e ∈ st, e.1.2 ≠ k ∧ ∃ c ∈ dangCellsCol k e.2.ast.root,
        st.foldlM (colDelStep k) acc = .error (dangMsg c)
  | [], _, h => by simp at h
  | e :: rest, acc, h => by
    by_cases hk : e.1.2 = k
    · have hstep := colDelStep_skip k acc e hk
      have hex : ∃ e' ∈ rest, e'.1.2 ≠ k ∧ hasDangCol k e'.2.ast.root = true := by
        obtain ⟨e', he', hne', hd⟩ := h
        rcases List.mem_cons.mp he' with heq | hmem
        · exact absurd (heq ▸ hk) hne'
        · exact ⟨e', hmem, hne', hd⟩
      obtain ⟨e', he', hne', c, hc, herr⟩ := colDel_fold_err k rest acc hex
      refine ⟨e', List.mem_cons_of_mem _ he', hne', c, hc, ?_⟩
      simp only [List.foldlM, hstep, Except.bind, bind]
      exact herr
    · by_cases hd : hasDangCol k e.2.ast.root = true
      · obtain ⟨c, hc, herr⟩ := colDelStep_err k acc e hk hd
        refine ⟨e, by simp, hk, c, hc, ?_⟩
        simp only [List.foldlM, herr, Except.bind, bind]
      · have hdf : hasDangCol k e.2.ast.root = false := by simpa using hd
        obtain ⟨acc', hstep⟩ := colDelStep_isOk k acc e hk hdf
        have hex : ∃ e' ∈ rest, e'.1.2 ≠ k ∧ hasDangCol k e'.2.ast.root = true := by
          obtain ⟨e', he', hne', hde'⟩ := h
          rcases List.mem_cons.mp he' with heq | hmem
          · exact absurd (heq ▸ hde') (by simp [hdf, heq])
          · exact ⟨e', hmem, hne', hde'⟩
        obtain ⟨e', he', hne', c, hc, herr⟩ := colDel_fold_err k rest acc' hex
        refine ⟨e', List.mem_cons_of_mem _ he', hne', c, hc, ?_⟩
        simp only [List.foldlM, hstep, Except.bind, bind]
        exact herr

theorem colDelKey_inj_on (k : Int) (a b : Int × Int)
    (ha : a.2 ≠ k) (hb : b.2 ≠ k) (h : colDelKey k a = colDelKey k b) : a = b := by
  rcases a with ⟨a1, a2⟩
  rcases b with ⟨b1, b2⟩
  simp only [colDelKey, Prod.mk.injEq] at h
  obtain ⟨h1, h2⟩ := h
  simp only at ha hb
  refine Prod.ext (by simpa using h1) ?_
  simp only
  split_ifs at h2 <;> omega

theorem survivorsCol_keys_nodup (k : Int) (st : Registry)
    (hnd : (st.map Prod.fst).Nodup) :
    ((st.filter (fun e => decide (e.1.2 ≠ k))).map (fun e => colDelKey k e.1)).Nodup := by
  have hsub : (st.filter (fun e => decide (e.1.2 ≠ k))).Sublist st :=
    List.filter_sublist st
  have hkeys : ((st.filter (fun e => decide (e.1.2 ≠ k))).map Prod.fst).Nodup :=
    (hsub.map Prod.fst).nodup hnd
  have heq : (st.filter (fun e => decide (e.1.2 ≠ k))).map (fun e => colDelKey k e.1) =
      ((st.filter (fun e => decide (e.1.2 ≠ k))).map Prod.fst).map (colDelKey k) := by
    simp [List.map_map]
  rw [heq]
  refine hkeys.map_on ?_
  intro x hx y hy hxy
  have hxk : x.2 ≠ k := by
    obtain ⟨e, he, hex⟩ := List.mem_map.mp hx
    have := (List.mem_filter.mp he).2
    simp only [decide_eq_true_eq] at this
    simpa [← hex] using this
  have hyk : y.2 ≠ k := by
    obtain ⟨e, he, hey⟩ := List.mem_map.mp hy
    have := (List.mem_filter.mp he).2
    simp only [decide_eq_true_eq] at this
    simpa [← hey] using this
  exact colDelKey_inj_on k x y hxk hyk hxy

/-- `handleColumnDeletion` in closed form when no surviving formula holds
a dangling reference: formulas on the deleted row are dropped, the
rest are re-keyed and rewritten by the specification rule. -/
theorem handleColumnDeletion_ok (k : Int) (st : Registry)
    (hnd : (st.map Prod.fst).Nodup)
    (hclean : ∀ e ∈ st, e.1.2 ≠ k → hasDangCol k e.2.ast.root = false) :
    handleColumnDeletion k st =
      .ok (rebuildDependencies
            ((st.filter (fun e => decide (e.1.2 ≠ k))).map (colDelEntry k)),
           (st.filter (fun e => decide (e.1.2 ≠ k))).map (colDelCall k)) := by
  have hfold := colDel_fold_ok k st ([], []) hclean (by simp)
    (survivorsCol_keys_nodup k st hnd)
  simp [handleColumnDeletion, hfold, pure, Except.pure, Except.bind, bind]

/-- `handleColumnDeletion` raises the dangling-reference failure, naming
a stranded reference, whenever a surviving formula holds one. -/
theorem handleColumnDeletion_err (k : Int) (st : Registry)
    (hex : ∃ e ∈ st, e.1.2 ≠ k ∧ hasDangCol k e.2.ast.root = true) :
    ∃ e ∈ st, e.1.2 ≠ k ∧ ∃ c ∈ dangCellsCol k e.2.ast.root,
      handleColumnDeletion k st = .error (dangMsg c) := by
  obtain ⟨e, he, hne, c, hc, herr⟩ := colDel_fold_err k st ([], []) hex
  refine ⟨e, he, hne, c, hc, ?_⟩
  simp [handleColumnDeletion, herr, pure, Except.pure, Except.bind, bind]

/-! ## Claim theorems -/

/-- Witness fixture: a formula `=A1` registered at (1, 0). -/
def infoA1 : FormulaInfo :=
  { ast := { root := .cell ⟨0, 0, false, false⟩, originalFormula := "=A1" }
    dependencies := [(0, 0)]
    dependents := [] }

/-- Witness fixture: a formula `=B2` registered data record. -/
def infoB2 : FormulaInfo :=
  { ast := { root := .cell ⟨1, 1, false, false⟩, originalFormula := "=B2" }
    dependencies := [(1, 1)]
    dependents := [] }

/-- Witness fixture registry with formulas at (1, 0) and (2, 0). -/
def regTwo : Registry := [((1, 0), infoA1), ((2, 0), infoB2)]

/-- Witness fixture registry with one formula at (0, 0) referencing
B2. -/
def regOne : Registry := [((0, 0), infoB2)]

/-- C1: for every registered formula and row index k,
`handleRowInsertion(k)` relocates each formula whose own row is ≥ k to
row + 1 (others keep their coordinate), and rewrites every tree by the
specification's reference rule `specShiftRowIns` — each cell reference
(and range endpoint) with `absoluteRow` false and row ≥ k has its row
increased by 1, while absolute references and references strictly
below k are unchanged.  The handler's full output is the spec-mapped
registry (with the dependents graph rebuilt) plus one callback per
formula carrying the rewritten text. -/
theorem c1_handleRowInsertion (k : Int) (st : Registry)
    (hnd : (st.map Prod.fst).Nodup) :
    handleRowInsertion k st =
      .ok (rebuildDependencies (st.map (rowInsEntry k)), st.map (rowInsCall k)) ∧
    (∀ e ∈ st, (rowInsEntry k e).1 =
      ((if k ≤ e.1.1 then e.1.1 + 1 else e.1.1), e.1.2)) ∧
    (∀ ref : CellRef, specShiftRowIns k (.cell ref) =
      .cell { ref with
                row := if ref.absoluteRow = false ∧ k ≤ ref.row then ref.row + 1
                       else ref.row }) := by
  refine ⟨handleRowInsertion_eq k st hnd, ?_, ?_⟩
  · intro e _
    simp [rowInsEntry, rowInsKey, ge_iff_le]
  · intro ref
    simp [specShiftRowIns]

/-- Witness for C1 at a concrete two-formula registry and k = 1. -/
theorem c1_handleRowInsertion_witness :
    handleRowInsertion 1 regTwo =
      .ok (rebuildDependencies (regTwo.map (rowInsEntry 1)),
           regTwo.map (rowInsCall 1)) :=
  (c1_handleRowInsertion 1 regTwo (by simp [regTwo])).1

/-- C2: `handleRowDeletion(r)` drops every formula whose own row is r;
if every surviving tree is free of references dangling on row r the
registry is rebuilt by the specification rule, while if any surviving
tree holds a cell reference (or range endpoint) with `absoluteRow`
false at exactly row r the call fails with a dangling-reference error
whose message names that reference's formatted address
(`dangMsg`). `hasDangRow` is exactly the claim's dangling condition,
so a reference with `absoluteRow` true at row r raises no failure. -/
theorem c2_handleRowDeletion (r : Int) (st : Registry)
    (hnd : (st.map Prod.fst).Nodup) :
    ((∀ e ∈ st, e.1.1 ≠ r → hasDangRow r e.2.ast.root = false) →
      handleRowDeletion r st =
        .ok (rebuildDependencies
              ((st.filter (fun e => decide (e.1.1 ≠ r))).map (rowDelEntry r)),
             (st.filter (fun e => decide (e.1.1 ≠ r))).map (rowDelCall r))) ∧
    ((∃ e ∈ st, e.1.1 ≠ r ∧ hasDangRow r e.2.ast.root = true) →
      ∃ e ∈ st, e.1.1 ≠ r ∧ ∃ c ∈ dangCellsRow r e.2.ast.root,
        handleRowDeletion r st = .error (dangMsg c)) ∧
    (∀ ref : CellRef,
      hasDangRow r (.cell ref) = true ↔ ref.absoluteRow = false ∧ ref.row = r) := by
  refine ⟨handleRowDeletion_ok r st hnd, handleRowDeletion_err r st, ?_⟩
  intro ref
  simp [hasDangRow]

/-- Witness for C2: deleting row 1 with a surviving `=B2` formula at
(0, 0) raises the dangling failure naming B2. -/
theorem c2_handleRowDeletion_witness :
    ∃ e ∈ regOne, e.1.1 ≠ 1 ∧ ∃ c ∈ dangCellsRow 1 e.2.ast.root,
      handleRowDeletion 1 regOne = .error (dangMsg c) :=
  (c2_handleRowDeletion 1 regOne (by simp [regOne])).2.1
    ⟨((0, 0), infoB2), by simp [regOne], by decide, by simp [infoB2, hasDangRow]⟩

/-! ## Frame lemmas for C10 -/

theorem alGet_cons {α β : Type} [DecidableEq α] (e : α × β) (l : List (α × β))
    (key : α) :
    alGet (e :: l) key = if e.1 = key then some e.2 else alGet l key := by
  by_cases h : e.1 = key <;> simp [alGet, List.find?, h]

theorem find?_filterP {α : Type} (q p : α → Bool) :
    ∀ l : List α, (l.filter q).find? p = l.find? (fun a => q a && p a)
  | [] => by simp
  | a :: rest => by
    by_cases hq : q a
    · by_cases hp : p a
      · simp [List.filter, hq, List.find?, hp]
      · simp only [List.filter, hq, List.find?, hp, cond_true, Bool.and_true,
          Bool.and_false]
        simp [hp, hq, find?_filterP q p rest]
    · simp only [List.filter, List.find?]
      simp [hq, find?_filterP q p rest]

theorem find?_congrP {α : Type} (p q : α → Bool) :
    ∀ l : List α, (∀ a ∈ l, p a = q a) → l.find? p = l.find? q
  | [], _ => rfl
  | a :: rest, h => by
    have ha := h a (by simp)
    by_cases hp : p a
    · simp [List.find?, hp, ← ha]
    · have hq : ¬ q a = true := by rw [← ha]; exact hp
      simp only [List.find?]
      simp [hp, hq, find?_congrP p q rest (fun a' ha' => h a' (by simp [ha']))]

theorem alGet_map_injOn (p : (Int × Int) → Prop) (f : (Int × Int) → Int × Int)
    (g : ((Int × Int) × FormulaInfo) → FormulaInfo)
    (hf : ∀ a b, p a → p b → f a = f b → a = b) :
    ∀ (l : Registry) (key : Int × Int), (∀ e ∈ l, p e.1) → p key →
      alGet (l.map (fun e => (f e.1, g e))) (f key) =
        (l.find? (fun e => decide (e.1 = key))).map g
  | [], key, _, _ => by simp [alGet]
  | e :: rest, key, hall, hk => by
    have ih := alGet_map_injOn p f g hf rest key
      (fun e' he' => hall e' (by simp [he'])) hk
    by_cases heq : e.1 = key
    · simp [List.map_cons, alGet_cons, heq, List.find?]
    · have hne : f e.1 ≠ f key := fun hc => heq (hf _ _ (hall e (by simp)) hk hc)
      rw [List.map_cons, alGet_cons]
      simp only [hne, if_false]
      rw [ih]
      have : (List.find? (fun e' => decide (e'.1 = key)) (e :: rest)) =
          List.find? (fun e' => decide (e'.1 = key)) rest := by
        simp [List.find?, heq]
      rw [this]

theorem alGet_some_find? {l : Registry} {key : Int × Int} {info : FormulaInfo}
    (h : alGet l key = some info) :
    ∃ e0, l.find? (fun e => decide (e.1 = key)) = some e0 ∧ e0.2 = info ∧ e0.1 = key := by
  simp only [alGet, Option.map_eq_some'] at h
  obtain ⟨e0, hfind, hsnd⟩ := h
  have := List.find?_some hfind
  simp only [decide_eq_true_eq] at this
  exact ⟨e0, hfind, hsnd, this⟩

theorem getFormula_rebuild (l : Registry) (r c : Int) :
    getFormula (rebuildDependencies l) r c = getFormula l r c := by
  have h := alGet_map_injOn (fun _ => True) id
    (fun e => { e.2 with
                  dependents := (l.filter (fun e2 => e.1 ∈ e2.2.dependencies)).map
                    (fun e2 => e2.1) })
    (fun a b _ _ hab => hab) l (r, c) (fun _ _ => trivial) trivial
  simp only [id] at h
  simp only [getFormula, rebuildDependencies]
  rw [h]
  simp only [alGet, Option.map_map]
  rfl

/-- C10: structural edits never touch the stored original formula
text.  (a) `shiftFormulaAST` changes only the root: any successful
shift keeps `originalFormula`.  (b)–(e) after each of the four
handlers, the registry entry at a surviving formula's (possibly
relocated) coordinate still answers `getFormula` with the pre-edit
text, while the rewritten text is delivered only through the recorded
callback calls (`"=" ++` the formatted shifted tree). -/
theorem c10_originalFormula_frame :
    (∀ (ast : FormulaAST) (ro co : Int) (ir ic dr dc : Option Int) (ast' : FormulaAST),
      shiftFormulaAST ast ro co ir ic dr dc = .ok ast' →
      ast'.originalFormula = ast.originalFormula) ∧
    (∀ (k : Int) (st : Registry) (out : Registry × List CallbackCall),
      (st.map Prod.fst).Nodup → handleRowInsertion k st = .ok out →
      out.2 = st.map (rowInsCall k) ∧
      ∀ key info, alGet st key = some info →
        getFormula out.1 (rowInsKey k key).1 (rowInsKey k key).2 =
          some info.ast.originalFormula) ∧
    (∀ (k : Int) (st : Registry) (out : Registry × List CallbackCall),
      (st.map Prod.fst).Nodup → handleColumnInsertion k st = .ok out →
      out.2 = st.map (colInsCall k) ∧
      ∀ key info, alGet st key = some info →
        getFormula out.1 (colInsKey k key).1 (colInsKey k key).2 =
          some info.ast.originalFormula) ∧
    (∀ (k : Int) (st : Registry) (out : Registry × List CallbackCall),
      (st.map Prod.fst).Nodup → handleRowDeletion k st = .ok out →
      out.2 = (st.filter (fun e => decide (e.1.1 ≠ k))).map (rowDelCall k) ∧
      ∀ key info, alGet st key = some info → key.1 ≠ k →
        getFormula out.1 (rowDelKey k key).1 (rowDelKey k key).2 =
          some info.ast.originalFormula) ∧
    (∀ (k : Int) (st : Registry) (out : Registry × List CallbackCall),
      (st.map Prod.fst).Nodup → handleColumnDeletion k st = .ok out →
      out.2 = (st.filter (fun e => decide (e.1.2 ≠ k))).map (colDelCall k) ∧
      ∀ key info, alGet st key = some info → key.2 ≠ k →
        getFormula out.1 (colDelKey k key).1 (colDelKey k key).2 =
          some info.ast.originalFormula) := by
  refine ⟨?_, ?_, ?_, ?_, ?_⟩
  · intro ast ro co ir ic dr dc ast' h
    simp only [shiftFormulaAST, bind, Except.bind] at h
    cases hs : shiftNode ro co ir ic dr dc ast.root with
    | error m => rw [hs] at h; cases h
    | ok root' =>
      rw [hs] at h
      simp only [pure, Except.pure, Except.ok.injEq] at h
      rw [← h]
  · intro k st out hnd hok
    rw [handleRowInsertion_eq k st hnd] at hok
    rcases Except.ok.inj hok with h
    refine ⟨by rw [← h], ?_⟩
    intro key info hget
    obtain ⟨e0, hfind, hsnd, hfst⟩ := alGet_some_find? hget
    have hmap := alGet_map_injOn (fun _ => True) (rowInsKey k)
      (fun e => shiftedInfo (specShiftRowIns k e.2.ast.root) e.2.ast.originalFormula)
      (fun a b _ _ hab => rowInsKey_injective k hab) st key
      (fun _ _ => trivial) trivial
    have hentry : st.map (rowInsEntry k) =
        st.map (fun e => (rowInsKey k e.1,
          shiftedInfo (specShiftRowIns k e.2.ast.root) e.2.ast.originalFormula)) := by
      simp [rowInsEntry]
    rw [← h]
    rw [getFormula_rebuild]
    simp only [getFormula, hentry]
    have : (rowInsKey k key) = ((rowInsKey k key).1, (rowInsKey k key).2) := rfl
    rw [← this, hmap, hfind]
    simp [shiftedInfo, hsnd]
  · intro k st out hnd hok
    rw [handleColumnInsertion_eq k st hnd] at hok
    rcases Except.ok.inj hok with h
    refine ⟨by rw [← h], ?_⟩
    intro key info hget
    obtain ⟨e0, hfind, hsnd, hfst⟩ := alGet_some_find? hget
    have hmap := alGet_map_injOn (fun _ => True) (colInsKey k)
      (fun e => shiftedInfo (specShiftColIns k e.2.ast.root) e.2.ast.originalFormula)
      (fun a b _ _ hab => colInsKey_injective k hab) st key
      (fun _ _ => trivial) trivial
    have hentry : st.map (colInsEntry k) =
        st.map (fun e => (colInsKey k e.1,
          shiftedInfo (specShiftColIns k e.2.ast.root) e.2.ast.originalFormula)) := by
      simp [colInsEntry]
    rw [← h]
    rw [getFormula_rebuild]
    simp only [getFormula, hentry]
    have : (colInsKey k key) = ((colInsKey k key).1, (colInsKey k key).2) := rfl
    rw [← this, hmap, hfind]
    simp [shiftedInfo, hsnd]
  · intro k st out hnd hok
    by_cases hclean : ∀ e ∈ st, e.1.1 ≠ k → hasDangRow k e.2.ast.root = false
    · rw [handleRowDeletion_ok k st hnd hclean] at hok
      rcases Except.ok.inj hok with h
      refine ⟨by rw [← h], ?_⟩
      intro key info hget hkey
      obtain ⟨e0, hfind, hsnd, hfst⟩ := alGet_some_find? hget
      have hmap := alGet_map_injOn (fun a => a.1 ≠ k) (rowDelKey k)
        (fun e => shiftedInfo (specShiftRowDel k e.2.ast.root) e.2.ast.originalFormula)
        (fun a b ha hb hab => rowDelKey_inj_on k a b ha hb hab)
        (st.filter (fun e => decide (e.1.1 ≠ k))) key
        (fun e he => by
          have := (List.mem_filter.mp he).2
          simpa using this) hkey
      have hentry : (st.filter (fun e => decide (e.1.1 ≠ k))).map (rowDelEntry k) =
          (st.filter (fun e => decide (e.1.1 ≠ k))).map (fun e => (rowDelKey k e.1,
            shiftedInfo (specShiftRowDel k e.2.ast.root) e.2.ast.originalFormula)) := by
        simp [rowDelEntry]
      have hfilterfind :
          (st.filter (fun e => decide (e.1.1 ≠ k))).find?
              (fun e => decide (e.1 = key)) =
            st.find? (fun e => decide (e.1 = key)) := by
        rw [find?_filterP]
        refine find?_congrP _ _ st ?_
        intro a _
        by_cases hak : a.1 = key
        · simp [hak, hkey]
        · simp [hak]
      rw [← h]
      rw [getFormula_rebuild]
      simp only [getFormula, hentry]
      have : (rowDelKey k key) = ((rowDelKey k key).1, (rowDelKey k key).2) := rfl
      rw [← this, hmap, hfilterfind, hfind]
      simp [shiftedInfo, hsnd]
    · exfalso
      push_neg at hclean
      obtain ⟨e, he, hne, hdang⟩ := hclean
      have hdang' : hasDangRow k e.2.ast.root = true := by
        simpa using hdang
      obtain ⟨e', _, _, c, _, herr⟩ := handleRowDeletion_err k st ⟨e, he, hne, hdang'⟩
      rw [herr] at hok
      cases hok
  · intro k st out hnd hok
    by_cases hclean : ∀ e ∈ st, e.1.2 ≠ k → hasDangCol k e.2.ast.root = false
    · rw [handleColumnDeletion_ok k st hnd hclean] at hok
      rcases Except.ok.inj hok with h
      refine ⟨by rw [← h], ?_⟩
      intro key info hget hkey
      obtain ⟨e0, hfind, hsnd, hfst⟩ := alGet_some_find? hget
      have hmap := alGet_map_injOn (fun a => a.2 ≠ k) (colDelKey k)
        (fun e => shiftedInfo (specShiftColDel k e.2.ast.root) e.2.ast.originalFormula)
        (fun a b ha hb hab => colDelKey_inj_on k a b ha hb hab)
        (st.filter (fun e => decide (e.1.2 ≠ k))) key
        (fun e he => by
          have := (List.mem_filter.mp he).2
          simpa using this) hkey
      have hentry : (st.filter (fun e => decide (e.1.2 ≠ k))).map (colDelEntry k) =
          (st.filter (fun e => decide (e.1.2 ≠ k))).map (fun e => (colDelKey k e.1,
            shiftedInfo (specShiftColDel k e.2.ast.root) e.2.ast.originalFormula)) := by
        simp [colDelEntry]
      have hfilterfind :
          (st.filter (fun e => decide (e.1.2 ≠ k))).find?
              (fun e => decide (e.1 = key)) =
            st.find? (fun e => decide (e.1 = key)) := by
        rw [find?_filterP]
        refine find?_congrP _ _ st ?_
        intro a _
        by_cases hak : a.1 = key
        · simp [hak, hkey]
        · simp [hak]
      rw [← h]
      rw [getFormula_rebuild]
      simp only [getFormula, hentry]
      have : (colDelKey k key) = ((colDelKey k key).1, (colDelKey k key).2) := rfl
      rw [← this, hmap, hfilterfind, hfind]
      simp [shiftedInfo, hsnd]
    · exfalso
      push_neg at hclean
      obtain ⟨e, he, hne, hdang⟩ := hclean
      have hdang' : hasDangCol k e.2.ast.root = true := by
        simpa using hdang
      obtain ⟨e', _, _, c, _, herr⟩ := handleColumnDeletion_err k st ⟨e, he, hne, hdang'⟩
      rw [herr] at hok
      cases hok

/-- Witness for C10: row insertion on the two-formula registry keeps
the `=A1` text reachable at the relocated coordinate (2, 0). -/
theorem c10_originalFormula_frame_witness :
    handleRowInsertion 1 regTwo =
      .ok (rebuildDependencies (regTwo.map (rowInsEntry 1)),
           regTwo.map (rowInsCall 1)) ∧
    getFormula (rebuildDependencies (regTwo.map (rowInsEntry 1))) 2 0 =
      some "=A1" := by
  have hok := (c1_handleRowInsertion 1 regTwo (by simp [regTwo])).1
  refine ⟨hok, ?_⟩
  have := (c10_originalFormula_frame.2.1 1 regTwo
    (rebuildDependencies (regTwo.map (rowInsEntry 1)), regTwo.map (rowInsCall 1))
    (by simp [regTwo]) hok).2 (1, 0) infoA1 (by simp [regTwo, alGet, List.find?])
  simpa [rowInsKey, infoA1] using this

/-! ## Engine-level claims -/

theorem evaluateFunction_unknown (name : String) (args : List CellValue)
    (h : name ∉ ["SUM", "MIN", "MAX", "AVERAGE", "COUNT"]) :
    evaluateFunction name args = .error ("Неизвестная функция: " ++ name) := by
  simp only [List.mem_cons, List.mem_singleton, not_or, List.not_mem_nil] at h
  unfold evaluateFunction
  split <;> simp_all

/-- Witness fixture: a context in which every cell is empty. -/
def ctxEmpty : FormulaContext :=
  { getCellValue := fun _ _ => ⟨.jnull, .empty⟩
    getCellRange := fun _ _ _ _ => [] }

/-- Witness fixture: `=INVALID(A1)` registered at (0, 0). -/
def regInvalid : Registry :=
  [((0, 0),
    { ast := { root := .functionCall "INVALID" [.cell ⟨0, 0, false, false⟩]
               originalFormula := "=INVALID(A1)" }
      dependencies := [(0, 0)]
      dependents := [] })]

/-- C3: `evaluateFormula` is a total function into typed cell values
(the model's totality is the no-throw property): its result type is
one of number/string/error/empty, a coordinate with no registered
formula yields the empty value, a formula whose root calls an unknown
function name yields a value typed `error` (the engine's catch turns
the internal throw into an error value), and division by zero — a
divisor whose `toNumber` is the number 0, the source's strict
`rightNum === 0` guard — evaluates to the `#DIV/0!` error value rather
than a failure, while a boolean-false divisor (which is not `=== 0`)
skips the guard and yields a number-typed value. -/
theorem c3_evaluateFormula_total (ctx : FormulaContext) (st : Registry)
    (row col : Int) :
    ((evaluateFormulaM ctx st row col).vtype = .number ∨
      (evaluateFormulaM ctx st row col).vtype = .string ∨
      (evaluateFormulaM ctx st row col).vtype = .error ∨
      (evaluateFormulaM ctx st row col).vtype = .empty) ∧
    (alGet st (row, col) = none →
      evaluateFormulaM ctx st row col = ⟨.jnull, .empty⟩) ∧
    (∀ fi name args, alGet st (row, col) = some fi →
      fi.ast.root = .functionCall name args →
      name ∉ ["SUM", "MIN", "MAX", "AVERAGE", "COUNT"] →
      (evaluateFormulaM ctx st row col).vtype = .error) ∧
    (∀ l r lv rv, evaluateNode ctx l = .ok lv → evaluateNode ctx r = .ok rv →
      toNumber rv = .num 0 →
      evaluateNode ctx (.binary "/" l r) = .ok ⟨.str "#DIV/0!", .error⟩) ∧
    (∀ l r lv rv, evaluateNode ctx l = .ok lv → evaluateNode ctx r = .ok rv →
      toNumber rv = .jbool false →
      (evaluateNode ctx (.binary "/" l r)).map CellValue.vtype =
        .ok CVType.number) := by
  refine ⟨?_, ?_, ?_, ?_, ?_⟩
  · cases h : (evaluateFormulaM ctx st row col).vtype <;> simp
  · intro h
    simp [evaluateFormulaM, h]
  · intro fi name args hget hroot hname
    simp only [evaluateFormulaM, hget, engineEvaluate, hroot]
    cases hargs : evaluateArgs ctx args with
    | error m =>
      simp [evaluateNode, hargs, Except.bind, bind, CellValue.vtype]
    | ok vals =>
      simp [evaluateNode, hargs, Except.bind, bind,
        evaluateFunction_unknown name vals hname, CellValue.vtype]
  · intro l r lv rv hl hr hz
    simp [evaluateNode, hl, hr, Except.bind, bind, evaluateBinaryOperation,
      hz, jsStrictEq]
  · intro l r lv rv hl hr hz
    simp [evaluateNode, hl, hr, Except.bind, bind, evaluateBinaryOperation,
      hz, jsStrictEq, Except.map, CellValue.vtype]

/-- Witness for C3: the unknown-function, division-by-the-number-0 and
division-by-false parts at concrete inputs. -/
theorem c3_evaluateFormula_total_witness :
    (evaluateFormulaM ctxEmpty regInvalid 0 0).vtype = .error ∧
    evaluateNode ctxEmpty (.binary "/" (.numberLit 1) (.numberLit 0)) =
      .ok ⟨.str "#DIV/0!", .error⟩ ∧
    (evaluateNode ctxEmpty (.binary "/" (.numberLit 1)
        (.binary "=" (.numberLit 1) (.numberLit 2)))).map CellValue.vtype =
      .ok CVType.number := by
  refine ⟨?_, ?_, ?_⟩
  · exact (c3_evaluateFormula_total ctxEmpty regInvalid 0 0).2.2.1
      _ "INVALID" [.cell ⟨0, 0, false, false⟩] rfl rfl (by decide)
  · exact (c3_evaluateFormula_total ctxEmpty regInvalid 0 0).2.2.2.1
      (.numberLit 1) (.numberLit 0) ⟨.num 1, .number⟩ ⟨.num 0, .number⟩ rfl rfl rfl
  · exact (c3_evaluateFormula_total ctxEmpty regInvalid 0 0).2.2.2.2
      (.numberLit 1) (.binary "=" (.numberLit 1) (.numberLit 2))
      ⟨.num 1, .number⟩ ⟨.jbool false, .number⟩ rfl
      (by norm_num [evaluateNode, Except.bind, bind, evaluateBinaryOperation,
        pure, Except.pure, toNumber, jsStrictEq, CellValue.vtype,
        CellValue.value])
      rfl

/-- Cell data of the stipulated context: A1=10, B1=20, A2=5, B2=15
typed number, everything else empty. -/
def cellVal6 (row col : Int) : CellValue :=
  if row = 0 ∧ col = 0 then ⟨.num 10, .number⟩
  else if row = 0 ∧ col = 1 then ⟨.num 20, .number⟩
  else if row = 1 ∧ col = 0 then ⟨.num 5, .number⟩
  else if row = 1 ∧ col = 1 then ⟨.num 15, .number⟩
  else ⟨.jnull, .empty⟩

/-- The stipulated evaluation context; `getCellRange` enumerates the
rectangle row-major over the same data. -/
def ctx6 : FormulaContext where
  getCellValue := cellVal6
  getCellRange := fun startRow startCol endRow endCol =>
    (intRangeList startRow endRow).flatMap (fun r =>
      (intRangeList startCol endCol).map (fun c => cellVal6 r c))

/-- The claim's "no numeric argument matched" condition: no argument
is a scalar typed number, and no array element is typed number. -/
def noNumericMatch (args : List CellValue) : Prop :=
  ∀ a ∈ args,
    ¬(a.vtype = CVType.number ∧ isArrV a.value = false) ∧
      ∀ l, a.value = .arr l → ∀ cv ∈ l, cv.vtype ≠ CVType.number

theorem foldl_fixed {β γ : Type} (f : γ → β → γ) :
    ∀ (l : List β) (acc : γ), (∀ acc' b, b ∈ l → f acc' b = acc') →
      l.foldl f acc = acc
  | [], _, _ => rfl
  | b :: rest, acc, h => by
    rw [List.foldl_cons, h acc b (by simp)]
    exact foldl_fixed f rest acc (fun acc' b' hb' => h acc' b' (by simp [hb']))

theorem sumStep_skip (a : CellValue)
    (h1 : ¬(a.vtype = CVType.number ∧ isArrV a.value = false))
    (h2 : ∀ l, a.value = .arr l → ∀ cv ∈ l, cv.vtype ≠ CVType.number)
    (acc : Rat × Bool) : sumStep acc a = acc := by
  rw [sumStep, if_neg h1]
  by_cases hemp : a.vtype = CVType.empty
  · rw [if_pos hemp]
  · rw [if_neg hemp]
    cases hv : a.value with
    | arr l =>
      exact foldl_fixed _ l acc (fun acc'' cv hcv => by
        simp [sumInner, h2 l hv cv hcv])
    | num q => rfl
    | str s => rfl
    | jbool b => rfl
    | jnull => rfl

theorem minStep_skip (a : CellValue)
    (h1 : ¬(a.vtype = CVType.number ∧ isArrV a.value = false))
    (h2 : ∀ l, a.value = .arr l → ∀ cv ∈ l, cv.vtype ≠ CVType.number)
    (acc : Option Rat) : minStep acc a = acc := by
  rw [minStep, if_neg h1]
  cases hv : a.value with
  | arr l =>
    exact foldl_fixed _ l acc (fun acc'' cv hcv => by
      simp [minInner, h2 l hv cv hcv])
  | num q => rfl
  | str s => rfl
  | jbool b => rfl
  | jnull => rfl

theorem maxStep_skip (a : CellValue)
    (h1 : ¬(a.vtype = CVType.number ∧ isArrV a.value = false))
    (h2 : ∀ l, a.value = .arr l → ∀ cv ∈ l, cv.vtype ≠ CVType.number)
    (acc : Option Rat) : maxStep acc a = acc := by
  rw [maxStep, if_neg h1]
  cases hv : a.value with
  | arr l =>
    exact foldl_fixed _ l acc (fun acc'' cv hcv => by
      simp [maxInner, h2 l hv cv hcv])
  | num q => rfl
  | str s => rfl
  | jbool b => rfl
  | jnull => rfl

theorem evaluateSum_noMatch (args : List CellValue) (h : noNumericMatch args) :
    evaluateSum args = .ok ⟨.num 0, .number⟩ := by
  have hfold := foldl_fixed sumStep args ((0 : Rat), false)
    (fun acc' a ha => sumStep_skip a (h a ha).1 (h a ha).2 acc')
  simp [evaluateSum, hfold]

theorem evaluateMin_noMatch (args : List CellValue) (h : noNumericMatch args) :
    evaluateMin args = .ok ⟨.num 0, .number⟩ := by
  have hfold := foldl_fixed minStep args none
    (fun acc' a ha => minStep_skip a (h a ha).1 (h a ha).2 acc')
  simp [evaluateMin, hfold]

theorem evaluateMax_noMatch (args : List CellValue) (h : noNumericMatch args) :
    evaluateMax args = .ok ⟨.num 0, .number⟩ := by
  have hfold := foldl_fixed maxStep args none
    (fun acc' a ha => maxStep_skip a (h a ha).1 (h a ha).2 acc')
  simp [evaluateMax, hfold]

/-- C6: under the stipulated context, `=SUM(A1:B2)` evaluates to 50,
`=MIN(A1:B2)` to 5, `=MAX(A1:B2)` to 20, `=AVERAGE(A1:B2)` to 12.5 and
`=A1+B2` to 25, all typed `number`; and SUM, MIN and MAX return 0 when
no numeric argument matched. -/
theorem c6_aggregate_functions (args : List CellValue) (h : noNumericMatch args) :
    (parseFormula "=SUM(A1:B2)").map (engineEvaluate ctx6) =
      .ok ⟨.num 50, .number⟩ ∧
    (parseFormula "=MIN(A1:B2)").map (engineEvaluate ctx6) =
      .ok ⟨.num 5, .number⟩ ∧
    (parseFormula "=MAX(A1:B2)").map (engineEvaluate ctx6) =
      .ok ⟨.num 20, .number⟩ ∧
    (parseFormula "=AVERAGE(A1:B2)").map (engineEvaluate ctx6) =
      .ok ⟨.num (25 / 2 : Rat), .number⟩ ∧
    (parseFormula "=A1+B2").map (engineEvaluate ctx6) =
      .ok ⟨.num 25, .number⟩ ∧
    evaluateSum args = .ok ⟨.num 0, .number⟩ ∧
    evaluateMin args = .ok ⟨.num 0, .number⟩ ∧
    evaluateMax args = .ok ⟨.num 0, .number⟩ := by
  refine ⟨?_, ?_, ?_, ?_, ?_, evaluateSum_noMatch args h, evaluateMin_noMatch args h,
    evaluateMax_noMatch args h⟩
  · have hp : parseFormula "=SUM(A1:B2)" =
        .ok { root := .functionCall "SUM" [.rangeN ⟨0, 0, 1, 1, false, false, false, false⟩],
              originalFormula := "=SUM(A1:B2)" } := rfl
    have hrange : ctx6.getCellRange 0 0 1 1 =
        [⟨.num 10, .number⟩, ⟨.num 20, .number⟩, ⟨.num 5, .number⟩,
         ⟨.num 15, .number⟩] := rfl
    rw [hp]
    simp only [Except.map, engineEvaluate, evaluateNode, evaluateArgs,
      Except.bind, bind, pure, Except.pure, evaluateFunction, evaluateSum, hrange]
    norm_num [sumStep, sumInner, CellValue.vtype, CellValue.value, isArrV, jsNumCoe]
    rfl
  · have hp : parseFormula "=MIN(A1:B2)" =
        .ok { root := .functionCall "MIN" [.rangeN ⟨0, 0, 1, 1, false, false, false, false⟩],
              originalFormula := "=MIN(A1:B2)" } := rfl
    have hrange : ctx6.getCellRange 0 0 1 1 =
        [⟨.num 10, .number⟩, ⟨.num 20, .number⟩, ⟨.num 5, .number⟩,
         ⟨.num 15, .number⟩] := rfl
    rw [hp]
    simp only [Except.map, engineEvaluate, evaluateNode, evaluateArgs,
      Except.bind, bind, pure, Except.pure, evaluateFunction, evaluateMin, hrange]
    norm_num [minStep, minInner, updateMinO, CellValue.vtype, CellValue.value,
      isArrV, jsNumCoe]
  · have hp : parseFormula "=MAX(A1:B2)" =
        .ok { root := .functionCall "MAX" [.rangeN ⟨0, 0, 1, 1, false, false, false, false⟩],
              originalFormula := "=MAX(A1:B2)" } := rfl
    have hrange : ctx6.getCellRange 0 0 1 1 =
        [⟨.num 10, .number⟩, ⟨.num 20, .number⟩, ⟨.num 5, .number⟩,
         ⟨.num 15, .number⟩] := rfl
    rw [hp]
    simp only [Except.map, engineEvaluate, evaluateNode, evaluateArgs,
      Except.bind, bind, pure, Except.pure, evaluateFunction, evaluateMax, hrange]
    norm_num [maxStep, maxInner, updateMaxO, CellValue.vtype, CellValue.value,
      isArrV, jsNumCoe]
  · have hp : parseFormula "=AVERAGE(A1:B2)" =
        .ok { root := .functionCall "AVERAGE" [.rangeN ⟨0, 0, 1, 1, false, false, false, false⟩],
              originalFormula := "=AVERAGE(A1:B2)" } := rfl
    have hrange : ctx6.getCellRange 0 0 1 1 =
        [⟨.num 10, .number⟩, ⟨.num 20, .number⟩, ⟨.num 5, .number⟩,
         ⟨.num 15, .number⟩] := rfl
    rw [hp]
    simp only [Except.map, engineEvaluate, evaluateNode, evaluateArgs,
      Except.bind, bind, pure, Except.pure, evaluateFunction, evaluateAverage, hrange]
    norm_num [avgStep, avgInner, CellValue.vtype, CellValue.value, isArrV, jsNumCoe]
  · have hp : parseFormula "=A1+B2" =
        .ok { root := .binary "+" (.cell ⟨0, 0, false, false⟩) (.cell ⟨1, 1, false, false⟩),
              originalFormula := "=A1+B2" } := rfl
    have hA1 : ctx6.getCellValue 0 0 = ⟨.num 10, .number⟩ := rfl
    have hB2 : ctx6.getCellValue 1 1 = ⟨.num 15, .number⟩ := rfl
    rw [hp]
    simp only [Except.map, engineEvaluate, evaluateNode, Except.bind, bind,
      pure, Except.pure, evaluateBinaryOperation, hA1, hB2]
    norm_num [toNumber, CellValue.vtype, CellValue.value, jsNumCoe]

/-- Witness for C6 with the non-matching argument list `["x" typed
string]`. -/
theorem c6_aggregate_functions_witness :
    (parseFormula "=SUM(A1:B2)").map (engineEvaluate ctx6) =
      .ok ⟨.num 50, .number⟩ ∧
    evaluateSum [⟨.str "x", .string⟩] = .ok ⟨.num 0, .number⟩ ∧
    evaluateMin [⟨.str "x", .string⟩] = .ok ⟨.num 0, .number⟩ := by
  have h : noNumericMatch [⟨.str "x", .string⟩] := by
    intro a ha
    simp only [List.mem_singleton] at ha
    subst ha
    refine ⟨by simp [CellValue.vtype], ?_⟩
    intro l hl
    simp [CellValue.value] at hl
  have hc := c6_aggregate_functions [⟨.str "x", .string⟩] h
  exact ⟨hc.1, hc.2.2.2.2.2.1, hc.2.2.2.2.2.2.1⟩

/-! ## C4: comparison operators -/

/-- C4: the grammar claim fails for the two-character comparison
operators. `=`, `<` and `>` parse into binary nodes, but `<=`, `>=`
and `<>` do not: `match` tries the one-character token first,
`advance()` moves a single character, and the leftover second
character is rejected by `parsePrimary` ("Неожиданный символ"). -/
theorem c4_comparison_operators :
    parseFormula "=A1=B1" =
      .ok { root := .binary "=" (.cell ⟨0, 0, false, false⟩) (.cell ⟨0, 1, false, false⟩),
            originalFormula := "=A1=B1" } ∧
    parseFormula "=A1<B1" =
      .ok { root := .binary "<" (.cell ⟨0, 0, false, false⟩) (.cell ⟨0, 1, false, false⟩),
            originalFormula := "=A1<B1" } ∧
    parseFormula "=A1>B1" =
      .ok { root := .binary ">" (.cell ⟨0, 0, false, false⟩) (.cell ⟨0, 1, false, false⟩),
            originalFormula := "=A1>B1" } ∧
    parseFormula "=A1<=B1" = .error ⟨"Неожиданный символ: =", 3⟩ ∧
    parseFormula "=A1>=B1" = .error ⟨"Неожиданный символ: =", 3⟩ ∧
    parseFormula "=A1<>B1" = .error ⟨"Неожиданный символ: >", 3⟩ :=
  ⟨rfl, rfl, rfl, rfl, rfl, rfl⟩

/-! ## C5: format/parse round trip -/

/-- The tree of `=(1+2)*3`: multiplication at the root. -/
def tree5a : FormulaNode :=
  .binary "*" (.binary "+" (.numberLit 1) (.numberLit 2)) (.numberLit 3)

/-- The tree of `=1+2*3`: addition at the root. -/
def tree5b : FormulaNode :=
  .binary "+" (.numberLit 1) (.binary "*" (.numberLit 2) (.numberLit 3))

/-- C5: the round trip is broken. `=(1+2)*3` parses to a tree with the
multiplication at the root, `formatFormula` prints it without
parentheses as `1+2*3`, and reparsing `=1+2*3` yields a tree with the
addition at the root — not structurally identical to the first. -/
theorem c5_format_parse_roundtrip :
    parseFormula "=(1+2)*3" = .ok { root := tree5a, originalFormula := "=(1+2)*3" } ∧
    formatFormula tree5a = "1+2*3" ∧
    parseFormula ("=" ++ "1+2*3") = .ok { root := tree5b, originalFormula := "=1+2*3" } ∧
    tree5a ≠ tree5b := by
  refine ⟨rfl, ?_, rfl, by simp [tree5a, tree5b]⟩
  have h1 : numToString 1 = "1" := rfl
  have h2 : numToString 2 = "2" := rfl
  have h3 : numToString 3 = "3" := rfl
  simp only [tree5a, formatFormula, h1, h2, h3]
  rfl

/-! ## C7: cell round trips in the sparse store -/

/-- C7: the read-back claim holds for truthy values and for removals,
but fails on stored falsy values: `setCell(2,3,0)` stores the number 0
(`hasCell` is true), yet `getCell` returns null because the read is
`block.get(key) || null` — even though 0 is not null, not undefined
and not the empty string. -/
theorem c7_getCell_roundtrip :
    getCell (setCell (smNew 1000) 2 3 (.num 7)) 2 3 = .num 7 ∧
    getCell (setCell (setCell (smNew 1000) 2 3 (.num 7)) 2 3 (.str "")) 2 3 =
      .snull ∧
    hasCell (setCell (setCell (smNew 1000) 2 3 (.num 7)) 2 3 (.str "")) 2 3 =
      false ∧
    setCell (setCell (smNew 1000) 2 3 (.num 7)) 2 3 (.str "") =
      removeCell (setCell (smNew 1000) 2 3 (.num 7)) 2 3 ∧
    getCell (smNew 1000) 5 6 = .snull ∧
    (SMVal.num 0 ≠ .snull ∧ SMVal.num 0 ≠ .str "") ∧
    getCell (setCell (smNew 1000) 2 3 (.num 0)) 2 3 = .snull ∧
    hasCell (setCell (smNew 1000) 2 3 (.num 0)) 2 3 = true := by
  refine ⟨rfl, rfl, rfl, rfl, rfl, ⟨by simp, by simp⟩, ?_, rfl⟩
  show (if smFalsy (.num 0) then SMVal.snull else .num 0) = .snull
  norm_num [smFalsy]

/-! ## C8: the sparse-store invariant

The JavaScript `Map` guarantees key uniqueness, so the association
lists modelling the block map carry duplicate-free keys; `SMWf`
bundles that well-formedness with the claimed invariant. -/

/-- Well-formed store: duplicate-free block keys plus the invariant. -/
def SMWf (m : SparseMatrix) : Prop :=
  (m.blocks.map Prod.fst).Nodup ∧ SMInv m

theorem map_replace_of_not_mem {α β : Type} [DecidableEq α] (k : α) (v : β) :
    ∀ (l : List (α × β)), k ∉ l.map Prod.fst →
      l.map (fun e => if e.1 = k then (k, v) else e) = l
  | [], _ => rfl
  | e :: rest, h => by
    simp only [List.map_cons, List.mem_cons] at h
    push_neg at h
    simp only [List.map_cons, if_neg (Ne.symm h.1),
      map_replace_of_not_mem k v rest h.2]

theorem alGet_append_fresh {α β : Type} [DecidableEq α] (k : α) (v : β) :
    ∀ (l : List (α × β)), alGet l k = none → alGet (l ++ [(k, v)]) k = some v
  | [], _ => by simp [alGet, List.find?]
  | e :: rest, h => by
    rw [alGet_cons] at h
    by_cases he : e.1 = k
    · simp [he] at h
    · rw [if_neg he] at h
      rw [List.cons_append, alGet_cons, if_neg he]
      exact alGet_append_fresh k v rest h

theorem alGet_replace_self {α β : Type} [DecidableEq α] (k : α) (v : β) :
    ∀ (l : List (α × β)) (b : β), alGet l k = some b →
      alGet (l.map (fun e => if e.1 = k then (k, v) else e)) k = some v
  | [], b, h => by simp [alGet] at h
  | e :: rest, b, h => by
    rw [alGet_cons] at h
    by_cases he : e.1 = k
    · simp only [List.map_cons, if_pos he]
      rw [alGet_cons]
      simp
    · rw [if_neg he] at h
      simp only [List.map_cons, if_neg he]
      rw [alGet_cons, if_neg he]
      exact alGet_replace_self k v rest b h

theorem alGet_find?_isSome {α β : Type} [DecidableEq α] (l : List (α × β)) (k : α) :
    (l.find? (fun e => decide (e.1 = k))).isSome = (alGet l k).isSome := by
  simp [alGet]

theorem alGet_alSet_self {α β : Type} [DecidableEq α] (l : List (α × β))
    (k : α) (v : β) : alGet (alSet l k v) k = some v := by
  unfold alSet
  split_ifs with h
  · rw [alGet_find?_isSome] at h
    obtain ⟨b, hb⟩ := Option.isSome_iff_exists.mp h
    exact alGet_replace_self k v l b hb
  · rw [alGet_find?_isSome] at h
    exact alGet_append_fresh k v l (Option.not_isSome_iff_eq_none.mp (by simpa using h))

theorem alSet_keys {α β : Type} [DecidableEq α] (l : List (α × β)) (k : α) (v : β) :
    (alSet l k v).map Prod.fst =
      if (alGet l k).isSome then l.map Prod.fst else l.map Prod.fst ++ [k] := by
  by_cases h : (alGet l k).isSome
  · rw [if_pos h]
    unfold alSet
    rw [if_pos (by rw [alGet_find?_isSome]; exact h)]
    rw [List.map_map]
    apply List.map_congr_left
    intro e _
    by_cases hek : e.1 = k <;> simp [hek]
  · rw [if_neg h]
    unfold alSet
    rw [if_neg (by rw [alGet_find?_isSome]; simpa using h)]
    simp

theorem alSet_keys_nodup {α β : Type} [DecidableEq α] {l : List (α × β)}
    (k : α) (v : β) (h : (l.map Prod.fst).Nodup) :
    ((alSet l k v).map Prod.fst).Nodup := by
  rw [alSet_keys]
  split_ifs with hs
  · exact h
  · have hfresh : k ∉ l.map Prod.fst :=
      (alGet_eq_none_iff l k).mp (Option.not_isSome_iff_eq_none.mp hs)
    simp [List.nodup_append, h, hfresh]

theorem mem_alSet {α β : Type} [DecidableEq α] {l : List (α × β)} {k : α} {v : β}
    {b : α × β} (hb : b ∈ alSet l k v) : b = (k, v) ∨ (b ∈ l ∧ b.1 ≠ k) := by
  unfold alSet at hb
  split_ifs at hb with h
  · obtain ⟨e, he, heq⟩ := List.mem_map.mp hb
    by_cases hek : e.1 = k
    · left
      rw [← heq, if_pos hek]
    · right
      rw [← heq, if_neg hek]
      exact ⟨he, hek⟩
  · rcases List.mem_append.mp hb with h1 | h2
    · right
      refine ⟨h1, ?_⟩
      have hnone : l.find? (fun e => decide (e.1 = k)) = none :=
        Option.not_isSome_iff_eq_none.mp (by simpa using h)
      have := List.find?_eq_none.mp hnone _ h1
      simpa using this
    · left
      simpa using h2

theorem alGet_some_mem {α β : Type} [DecidableEq α] {l : List (α × β)} {k : α}
    {b : β} (h : alGet l k = some b) : (k, b) ∈ l := by
  unfold alGet at h
  obtain ⟨e, he, he2⟩ := Option.map_eq_some'.mp h
  have hk := List.find?_some he
  have hmem := List.mem_of_find?_eq_some he
  simp only [decide_eq_true_eq] at hk
  have : e = (k, b) := Prod.ext hk he2
  exact this ▸ hmem

theorem sum_replace {α β : Type} [DecidableEq α] (f : β → Int) (k : α) (v : β) :
    ∀ (l : List (α × β)) (b : β), (l.map Prod.fst).Nodup → alGet l k = some b →
      ((l.map (fun e => if e.1 = k then (k, v) else e)).map (fun e => f e.2)).sum =
        (l.map (fun e => f e.2)).sum - f b + f v
  | [], b, _, h => by simp [alGet] at h
  | e :: rest, b, hnd, h => by
    rw [alGet_cons] at h
    simp only [List.map_cons, List.nodup_cons] at hnd
    by_cases hek : e.1 = k
    · rw [if_pos hek] at h
      obtain rfl : e.2 = b := by injection h
      simp only [List.map_cons, if_pos hek, List.sum_cons]
      rw [map_replace_of_not_mem k v rest (hek ▸ hnd.1)]
      ring
    · rw [if_neg hek] at h
      simp only [List.map_cons, if_neg hek, List.sum_cons]
      rw [sum_replace f k v rest b hnd.2 h]
      ring

theorem sum_alSet_present {α β : Type} [DecidableEq α] (f : β → Int) (k : α)
    (v : β) (l : List (α × β)) (b : β) (hnd : (l.map Prod.fst).Nodup)
    (h : alGet l k = some b) :
    ((alSet l k v).map (fun e => f e.2)).sum =
      (l.map (fun e => f e.2)).sum - f b + f v := by
  unfold alSet
  rw [if_pos (by rw [alGet_find?_isSome, h]; rfl)]
  exact sum_replace f k v l b hnd h

theorem sum_alSet_absent {α β : Type} [DecidableEq α] (f : β → Int) (k : α)
    (v : β) (l : List (α × β)) (h : alGet l k = none) :
    ((alSet l k v).map (fun e => f e.2)).sum =
      (l.map (fun e => f e.2)).sum + f v := by
  rw [alSet_of_not_mem ((alGet_eq_none_iff l k).mp h)]
  simp

theorem sum_alDelete {α β : Type} [DecidableEq α] (f : β → Int) (k : α) :
    ∀ (l : List (α × β)) (b : β), (l.map Prod.fst).Nodup → alGet l k = some b →
      ((alDelete l k).map (fun e => f e.2)).sum =
        (l.map (fun e => f e.2)).sum - f b
  | [], b, _, h => by simp [alGet] at h
  | e :: rest, b, hnd, h => by
    rw [alGet_cons] at h
    simp only [List.map_cons, List.nodup_cons] at hnd
    by_cases hek : e.1 = k
    · rw [if_pos hek] at h
      obtain rfl : e.2 = b := by injection h
      have hd : decide (e.1 = k) = true := decide_eq_true hek
      simp only [alDelete, List.eraseP_cons, hd, cond_true, List.map_cons,
        List.sum_cons]
      ring
    · rw [if_neg hek] at h
      have hd : decide (e.1 = k) = false := decide_eq_false hek
      simp only [alDelete, List.eraseP_cons, hd, cond_false, List.map_cons,
        List.sum_cons]
      rw [show (List.eraseP (fun e => decide (e.1 = k)) rest) = alDelete rest k
        from rfl]
      rw [sum_alDelete f k rest b hnd.2 h]
      ring

theorem alDelete_keys_nodup {α β : Type} [DecidableEq α] {l : List (α × β)}
    (k : α) (h : (l.map Prod.fst).Nodup) :
    ((alDelete l k).map Prod.fst).Nodup :=
  h.sublist (List.Sublist.map Prod.fst (List.eraseP_sublist l))

theorem mem_alDelete_mem {α β : Type} [DecidableEq α] {l : List (α × β)}
    {k : α} {b : α × β} (h : b ∈ alDelete l k) : b ∈ l :=
  (List.eraseP_sublist l).subset h

theorem not_mem_keys_alDelete {α β : Type} [DecidableEq α] (k : α) :
    ∀ (l : List (α × β)), (l.map Prod.fst).Nodup →
      k ∉ (alDelete l k).map Prod.fst
  | [], _ => by simp [alDelete]
  | e :: rest, hnd => by
    simp only [List.map_cons, List.nodup_cons] at hnd
    by_cases hek : e.1 = k
    · have hd : decide (e.1 = k) = true := decide_eq_true hek
      simp only [alDelete, List.eraseP_cons, hd, cond_true]
      exact fun hc => hnd.1 (hek ▸ hc)
    · have hd : decide (e.1 = k) = false := decide_eq_false hek
      simp only [alDelete, List.eraseP_cons, hd, cond_false, List.map_cons,
        List.mem_cons]
      rintro (hc | hc)
      · exact hek hc.symm
      · exact not_mem_keys_alDelete k rest hnd.2 hc

theorem alSet_length_present {α β : Type} [DecidableEq α] (l : List (α × β))
    (k : α) (v : β) (h : (alGet l k).isSome) : (alSet l k v).length = l.length := by
  unfold alSet
  rw [if_pos (by rw [alGet_find?_isSome]; exact h)]
  exact List.length_map l _

theorem alSet_length_absent {α β : Type} [DecidableEq α] (l : List (α × β))
    (k : α) (v : β) (h : alGet l k = none) :
    (alSet l k v).length = l.length + 1 := by
  rw [alSet_of_not_mem ((alGet_eq_none_iff l k).mp h)]
  simp

theorem alDelete_length {α β : Type} [DecidableEq α] (l : List (α × β))
    (k : α) (b : β) (h : alGet l k = some b) :
    (alDelete l k).length = l.length - 1 := by
  unfold alGet at h
  obtain ⟨e, he, _⟩ := Option.map_eq_some'.mp h
  have hmem := List.mem_of_find?_eq_some he
  have hp := List.find?_some he
  exact List.length_eraseP_of_mem hmem hp

theorem smWf_new (bs : Nat) : SMWf (smNew bs) := by
  constructor <;> simp [smNew, SMInv]

theorem smWf_clear (m : SparseMatrix) : SMWf (clearSM m) := by
  constructor <;> simp [clearSM, SMInv]

theorem optimize_eq_of_wf (m : SparseMatrix) (h : SMWf m) : optimizeSM m = m := by
  have hfil : m.blocks.filter (fun e => decide (e.2.length ≠ 0)) = m.blocks := by
    apply List.filter_eq_self.mpr
    intro e he
    simpa using h.2.1 e he
  show { m with blocks := m.blocks.filter (fun e => decide (e.2.length ≠ 0)) } = m
  rw [hfil]

theorem blocksSum_alSet_present (l : List ((Nat × Nat) × SMBlock)) (k : Nat × Nat)
    (v b : SMBlock) (hnd : (l.map Prod.fst).Nodup) (h : alGet l k = some b) :
    ((alSet l k v).map (fun e => (e.2.length : Int))).sum =
      (l.map (fun e => (e.2.length : Int))).sum - (b.length : Int) +
        (v.length : Int) :=
  sum_alSet_present (fun bl => (bl.length : Int)) k v l b hnd h

theorem blocksSum_alSet_absent (l : List ((Nat × Nat) × SMBlock)) (k : Nat × Nat)
    (v : SMBlock) (h : alGet l k = none) :
    ((alSet l k v).map (fun e => (e.2.length : Int))).sum =
      (l.map (fun e => (e.2.length : Int))).sum + (v.length : Int) :=
  sum_alSet_absent (fun bl => (bl.length : Int)) k v l h

theorem blocksSum_alDelete (l : List ((Nat × Nat) × SMBlock)) (k : Nat × Nat)
    (b : SMBlock) (hnd : (l.map Prod.fst).Nodup) (h : alGet l k = some b) :
    ((alDelete l k).map (fun e => (e.2.length : Int))).sum =
      (l.map (fun e => (e.2.length : Int))).sum - (b.length : Int) :=
  sum_alDelete (fun bl => (bl.length : Int)) k l b hnd h

theorem removeCell_eq_none (m : SparseMatrix) (row col : Nat)
    (hb : alGet m.blocks (getBlockKey m row col) = none) :
    removeCell m row col = m := by
  unfold removeCell
  simp [hb]

theorem removeCell_eq_novalue (m : SparseMatrix) (row col : Nat) (block : SMBlock)
    (hb : alGet m.blocks (getBlockKey m row col) = some block)
    (hck : alGet block (getCellKey m row col) = none) :
    removeCell m row col = m := by
  unfold removeCell
  simp [hb, hck]

theorem removeCell_eq_present (m : SparseMatrix) (row col : Nat) (block : SMBlock)
    (hb : alGet m.blocks (getBlockKey m row col) = some block)
    (hck : (alGet block (getCellKey m row col)).isSome) :
    removeCell m row col =
      { m with
          blocks :=
            if (alDelete block (getCellKey m row col)).length = 0 then
              alDelete (alSet m.blocks (getBlockKey m row col)
                (alDelete block (getCellKey m row col))) (getBlockKey m row col)
            else alSet m.blocks (getBlockKey m row col)
              (alDelete block (getCellKey m row col))
          totalCells := m.totalCells - 1 } := by
  unfold removeCell
  simp [hb, hck]

theorem setCell_eq_present (m : SparseMatrix) (row col : Nat) (v : SMVal)
    (block : SMBlock)
    (hfalsy : ¬(v = .snull ∨ v = .str ""))
    (hb : alGet m.blocks (getBlockKey m row col) = some block) :
    setCell m row col v =
      { m with
          blocks := alSet m.blocks (getBlockKey m row col)
            (alSet block (getCellKey m row col) v)
          totalCells :=
            if (alGet block (getCellKey m row col)).isSome then m.totalCells
            else m.totalCells + 1 } := by
  unfold setCell
  rw [if_neg hfalsy]
  simp [hb]

theorem setCell_eq_absent (m : SparseMatrix) (row col : Nat) (v : SMVal)
    (hfalsy : ¬(v = .snull ∨ v = .str ""))
    (hb : alGet m.blocks (getBlockKey m row col) = none) :
    setCell m row col v =
      { m with
          blocks := alSet (alSet m.blocks (getBlockKey m row col) [])
            (getBlockKey m row col) [((getCellKey m row col), v)]
          totalCells := m.totalCells + 1 } := by
  unfold setCell
  rw [if_neg hfalsy]
  have hb1 : alGet (alSet m.blocks (getBlockKey m row col) [])
      (getBlockKey m row col) = some [] := alGet_alSet_self _ _ _
  simp [hb, hb1]
  exact ⟨rfl, rfl⟩

theorem smWf_removeCell (m : SparseMatrix) (row col : Nat) (h : SMWf m) :
    SMWf (removeCell m row col) := by
  have hnd := h.1
  have hne := h.2.1
  have hsum := h.2.2
  cases hb : alGet m.blocks (getBlockKey m row col) with
  | none => rw [removeCell_eq_none m row col hb]; exact h
  | some block =>
    by_cases hck : (alGet block (getCellKey m row col)).isSome
    case neg =>
      rw [removeCell_eq_novalue m row col block hb
        (Option.not_isSome_iff_eq_none.mp hck)]
      exact h
    case pos =>
      rw [removeCell_eq_present m row col block hb hck]
      obtain ⟨bv, hbv⟩ := Option.isSome_iff_exists.mp hck
      have hlen := alDelete_length block (getCellKey m row col) bv hbv
      have hpos : 1 ≤ block.length := by
        cases hblock : block with
        | nil => rw [hblock] at hbv; simp [alGet] at hbv
        | cons x xs => simp [hblock]
      have hget' : alGet (alSet m.blocks (getBlockKey m row col)
          (alDelete block (getCellKey m row col))) (getBlockKey m row col) =
          some (alDelete block (getCellKey m row col)) :=
        alGet_alSet_self _ _ _
      have hnd' : ((alSet m.blocks (getBlockKey m row col)
          (alDelete block (getCellKey m row col))).map Prod.fst).Nodup :=
        alSet_keys_nodup _ _ hnd
      have hsum' : ((alSet m.blocks (getBlockKey m row col)
            (alDelete block (getCellKey m row col))).map
              (fun e => (e.2.length : Int))).sum =
          (m.blocks.map (fun e => (e.2.length : Int))).sum -
            (block.length : Int) +
            ((alDelete block (getCellKey m row col)).length : Int) :=
        blocksSum_alSet_present m.blocks (getBlockKey m row col)
          (alDelete block (getCellKey m row col)) block hnd hb
      refine ⟨?_, ?_, ?_⟩
      · dsimp only
        split_ifs with hzero
        · exact alDelete_keys_nodup _ hnd'
        · exact hnd'
      · intro b hbmem
        dsimp only at hbmem
        split_ifs at hbmem with hzero
        · have h1 := mem_alDelete_mem hbmem
          rcases mem_alSet h1 with heq | ⟨hmem, _⟩
          · exfalso
            have hkmem := List.mem_map_of_mem Prod.fst hbmem
            rw [heq] at hkmem
            exact not_mem_keys_alDelete _ _ hnd' hkmem
          · exact hne b hmem
        · rcases mem_alSet hbmem with heq | ⟨hmem, _⟩
          · rw [heq]
            simpa using hzero
          · exact hne b hmem
      · dsimp only
        split_ifs with hzero
        · have hdel : ((alDelete (alSet m.blocks (getBlockKey m row col)
                (alDelete block (getCellKey m row col)))
                (getBlockKey m row col)).map (fun e => (e.2.length : Int))).sum =
              ((alSet m.blocks (getBlockKey m row col)
                (alDelete block (getCellKey m row col))).map
                  (fun e => (e.2.length : Int))).sum -
                ((alDelete block (getCellKey m row col)).length : Int) :=
            blocksSum_alDelete _ (getBlockKey m row col)
              (alDelete block (getCellKey m row col)) hnd' hget'
          have hone : block.length = 1 := by omega
          rw [hdel, hsum', hsum, hzero, hone]
          norm_num
        · rw [hsum', hsum, hlen]
          push_cast [hpos]
          ring

theorem smWf_setCell (m : SparseMatrix) (row col : Nat) (v : SMVal) (h : SMWf m) :
    SMWf (setCell m row col v) := by
  have hnd := h.1
  have hne := h.2.1
  have hsum := h.2.2
  by_cases hfalsy : v = SMVal.snull ∨ v = SMVal.str ""
  · have : setCell m row col v = removeCell m row col := by
      unfold setCell
      rw [if_pos hfalsy]
    rw [this]
    exact smWf_removeCell m row col h
  · cases hb : alGet m.blocks (getBlockKey m row col) with
    | some block =>
      rw [setCell_eq_present m row col v block hfalsy hb]
      refine ⟨?_, ?_, ?_⟩
      · exact alSet_keys_nodup _ _ hnd
      · intro b hbmem
        dsimp only at hbmem
        rcases mem_alSet hbmem with heq | ⟨hmem, _⟩
        · rw [heq]
          by_cases hcv : (alGet block (getCellKey m row col)).isSome
          · show (alSet block (getCellKey m row col) v).length ≠ 0
            rw [alSet_length_present _ _ _ hcv]
            have := hne _ (alGet_some_mem hb)
            simpa using this
          · show (alSet block (getCellKey m row col) v).length ≠ 0
            rw [alSet_length_absent _ _ _ (Option.not_isSome_iff_eq_none.mp hcv)]
            simp
        · exact hne b hmem
      · dsimp only
        have hsum2 : ((alSet m.blocks (getBlockKey m row col)
              (alSet block (getCellKey m row col) v)).map
                (fun e => (e.2.length : Int))).sum =
            (m.blocks.map (fun e => (e.2.length : Int))).sum -
              (block.length : Int) +
              ((alSet block (getCellKey m row col) v).length : Int) :=
          blocksSum_alSet_present m.blocks (getBlockKey m row col)
            (alSet block (getCellKey m row col) v) block hnd hb
        by_cases hcv : (alGet block (getCellKey m row col)).isSome
        · rw [if_pos hcv, hsum2, alSet_length_present _ _ _ hcv, hsum]
          ring
        · have hcv' := Option.not_isSome_iff_eq_none.mp hcv
          rw [if_neg hcv, hsum2, alSet_length_absent _ _ _ hcv', hsum]
          push_cast
          ring
    | none =>
      rw [setCell_eq_absent m row col v hfalsy hb]
      have hb1 : alGet (alSet m.blocks (getBlockKey m row col) [])
          (getBlockKey m row col) = some [] := alGet_alSet_self _ _ _
      have hnd1 : ((alSet m.blocks (getBlockKey m row col) []).map
          Prod.fst).Nodup := alSet_keys_nodup _ _ hnd
      refine ⟨?_, ?_, ?_⟩
      · exact alSet_keys_nodup _ _ hnd1
      · intro b hbmem
        dsimp only at hbmem
        rcases mem_alSet hbmem with heq | ⟨hmem, hbne⟩
        · rw [heq]
          simp
        · rcases mem_alSet hmem with heq2 | ⟨hmem2, _⟩
          · exact absurd (by rw [heq2]) hbne
          · exact hne b hmem2
      · dsimp only
        have hsumA : ((alSet m.blocks (getBlockKey m row col) []).map
              (fun e => (e.2.length : Int))).sum =
            (m.blocks.map (fun e => (e.2.length : Int))).sum := by
          rw [blocksSum_alSet_absent m.blocks (getBlockKey m row col) [] hb]
          simp
        have hsumB : ((alSet (alSet m.blocks (getBlockKey m row col) [])
              (getBlockKey m row col) [((getCellKey m row col), v)]).map
                (fun e => (e.2.length : Int))).sum =
            ((alSet m.blocks (getBlockKey m row col) []).map
              (fun e => (e.2.length : Int))).sum -
              (([] : SMBlock).length : Int) +
              (([((getCellKey m row col), v)] : SMBlock).length : Int) :=
          blocksSum_alSet_present (alSet m.blocks (getBlockKey m row col) [])
            (getBlockKey m row col) [((getCellKey m row col), v)] [] hnd1 hb1
        rw [hsumB, hsumA, hsum]
        norm_num

/-- C8, amended: the invariant — no empty block in the map and a cell
counter equal to the summed block sizes — holds initially and is
preserved by `setCell`, `removeCell`, `clear` and `optimize` (which is
the identity on invariant states), with `getStats` reporting the sum;
but `importFromJSON` does NOT preserve it: a payload whose
`totalCells` disagrees with its blocks, or which contains an empty
block object, is installed verbatim. -/
theorem c8_invariant_preservation :
    (∀ bs, SMWf (smNew bs)) ∧
    (∀ m row col v, SMWf m → SMWf (setCell m row col v)) ∧
    (∀ m row col, SMWf m → SMWf (removeCell m row col)) ∧
    (∀ m, SMWf (clearSM m)) ∧
    (∀ m, SMWf m → optimizeSM m = m) ∧
    (∀ m, SMWf m → getStatsTotalCells m =
      (m.blocks.map (fun b => (b.2.length : Int))).sum) ∧
    ¬ SMInv (importFromJSONData (smNew 1000)
        { blockSize := some 1000, totalCells := some 1000,
          blocks := [((0, 0), some [])] }) := by
  refine ⟨smWf_new, smWf_setCell, smWf_removeCell, smWf_clear, optimize_eq_of_wf,
    fun m hm => hm.2.2, ?_⟩
  intro hinv
  have hblocks : (importFromJSONData (smNew 1000)
      { blockSize := some 1000, totalCells := some 1000,
        blocks := [((0, 0), some [])] }).blocks = [((0, 0), ([] : SMBlock))] := rfl
  have := hinv.1 ((0, 0), ([] : SMBlock))
    (by rw [hblocks]; exact List.mem_singleton_self _)
  exact this rfl

/-- Witness for C8: the invariant after one `setCell` on a fresh
store. -/
theorem c8_invariant_preservation_witness :
    SMWf (setCell (smNew 1000) 2 3 (.num 7)) :=
  c8_invariant_preservation.2.1 (smNew 1000) 2 3 (.num 7)
    (by constructor <;> simp [smNew, SMInv])

/-- Counterexample to C8 as stated: `importFromJSON` is one of the
listed operations, yet it installs the payload's `totalCells` and
blocks verbatim — here a counter of 1000 against one empty block. -/
theorem c8_import_counterexample :
    ¬ SMInv (importFromJSONData (smNew 1000)
        { blockSize := some 1000, totalCells := some 1000,
          blocks := [((0, 0), some [])] }) := by
  intro hinv
  have hblocks : (importFromJSONData (smNew 1000)
      { blockSize := some 1000, totalCells := some 1000,
        blocks := [((0, 0), some [])] }).blocks = [((0, 0), ([] : SMBlock))] := rfl
  have := hinv.1 ((0, 0), ([] : SMBlock))
    (by rw [hblocks]; exact List.mem_singleton_self _)
  exact this rfl
